import Mathlib

/-!
Anura value algorithms: `variant_utils.cpp` and `formula_constants.cpp`.

A shallow embedding of the value algorithms of `src/variant_utils.cpp`
(`append_variants`, `merge_variant_over`, `smart_merge_variants`, the
`variant_builder`, `deep_copy_variant`, `visit_variants`,
`parse_variant_list_or_csv_string`) and of the constant scope stack of
`src/formula_constants.cpp` (`get_constant`, `constants_loader`) over a model of
the tagged value type `variant`, followed by the properties proved about them.

The class `variant` itself (variant.hpp / variant.cpp) is not among the
sources; its model below follows the data model of the specification.  Values
are modelled by value: reference counting, aliasing between handles and the
optional debug metadata are not represented.
-/

/-- Modelled from the spec: the tagged value `variant`, whose declaration
(variant.hpp) is missing.  A value is one of null, boolean, integer, decimal,
string, list, map or opaque object.  A decimal is held as its raw fixed-point
integer, an opaque object as an identity number.  A map is held as the sequence
of its entries in iteration order (the order of `std::map<variant,variant>`). -/
inductive Variant where
  | null
  | bool (b : Bool)
  | int (n : Int)
  | decimal (raw : Int)
  | string (s : String)
  | list (items : List Variant)
  | map (entries : List (Variant × Variant))
  | object (id : Nat)

namespace Variant

/-- Modelled from the spec: the discriminant `variant::type()`, numbered in the
order in which the specification lists the alternatives. -/
def type : Variant → Nat
  | null => 0
  | bool _ => 1
  | int _ => 2
  | decimal _ => 3
  | string _ => 4
  | list _ => 5
  | map _ => 6
  | object _ => 7

/-- Three-way comparison in a linear order. -/
def ordOf {α : Type} [LinearOrder α] (a b : α) : Ordering :=
  if a < b then .lt else if b < a then .gt else .eq

mutual
/-- Modelled from the spec: the ordering of values that `std::map<variant,variant>`
uses for its keys.  The specification only speaks of "key order"; values of one
kind are compared by content (strings as character sequences, lists and maps
lexicographically), values of different kinds by discriminant. -/
def cmp : Variant → Variant → Ordering
  | null, null => .eq
  | bool a, bool b => ordOf a b
  | int a, int b => ordOf a b
  | decimal a, decimal b => ordOf a b
  | string a, string b => ordOf a.toList b.toList
  | list a, list b => cmpList a b
  | map a, map b => cmpPairs a b
  | object a, object b => ordOf a b
  | a, b => ordOf (type a) (type b)
/-- Lexicographic comparison of two lists of values. -/
def cmpList : List Variant → List Variant → Ordering
  | [], [] => .eq
  | [], _ :: _ => .lt
  | _ :: _, [] => .gt
  | x :: xs, y :: ys => (cmp x y).then (cmpList xs ys)
/-- Lexicographic comparison of two entry sequences. -/
def cmpPairs : List (Variant × Variant) → List (Variant × Variant) → Ordering
  | [], [] => .eq
  | [], _ :: _ => .lt
  | _ :: _, [] => .gt
  | (k, v) :: xs, (k2, v2) :: ys => ((cmp k k2).then (cmp v v2)).then (cmpPairs xs ys)
end

theorem ordOf_eq_iff {α : Type} [LinearOrder α] (a b : α) : ordOf a b = .eq ↔ a = b := by
  unfold ordOf
  rcases lt_trichotomy a b with h | h | h
  · simp [h, ne_of_lt h]
  · simp [h]
  · simp [h, not_lt_of_gt h, (ne_of_lt h).symm]

theorem then_eq_iff (a b : Ordering) : a.then b = .eq ↔ a = .eq ∧ b = .eq := by
  cases a <;> cases b <;> simp [Ordering.then]

theorem type_eq_of_cmp (a b : Variant) (h : cmp a b = .eq) : type a = type b := by
  cases a <;> cases b <;> first | rfl | (simp [cmp, type, ordOf] at h)

theorem cmp_ne_of_type (a b : Variant) (h : type a ≠ type b) : cmp a b ≠ .eq :=
  fun e => h (type_eq_of_cmp a b e)

mutual
theorem cmp_eq : ∀ (a b : Variant), cmp a b = .eq → a = b
  | null, b, h => by
    cases b <;> first | rfl | exact absurd h (cmp_ne_of_type _ _ (by simp [type]))
  | bool x, b, h => by
    cases b <;> first
      | (simp only [cmp, ordOf_eq_iff] at h; rw [h])
      | exact absurd h (cmp_ne_of_type _ _ (by simp [type]))
  | int x, b, h => by
    cases b <;> first
      | (simp only [cmp, ordOf_eq_iff] at h; rw [h])
      | exact absurd h (cmp_ne_of_type _ _ (by simp [type]))
  | decimal x, b, h => by
    cases b <;> first
      | (simp only [cmp, ordOf_eq_iff] at h; rw [h])
      | exact absurd h (cmp_ne_of_type _ _ (by simp [type]))
  | string x, b, h => by
    cases b <;> first
      | (simp only [cmp, ordOf_eq_iff] at h; rw [String.ext h])
      | exact absurd h (cmp_ne_of_type _ _ (by simp [type]))
  | object x, b, h => by
    cases b <;> first
      | (simp only [cmp, ordOf_eq_iff] at h; rw [h])
      | exact absurd h (cmp_ne_of_type _ _ (by simp [type]))
  | list xs, b, h => by
    cases b with
    | list ys => simp only [cmp] at h; rw [cmpList_eq xs ys h]
    | _ => exact absurd h (cmp_ne_of_type _ _ (by simp [type]))
  | map xs, b, h => by
    cases b with
    | map ys => simp only [cmp] at h; rw [cmpPairs_eq xs ys h]
    | _ => exact absurd h (cmp_ne_of_type _ _ (by simp [type]))
theorem cmpList_eq : ∀ (xs ys : List Variant), cmpList xs ys = .eq → xs = ys
  | [], [], _ => rfl
  | [], _ :: _, h => by simp [cmpList] at h
  | _ :: _, [], h => by simp [cmpList] at h
  | x :: xs, y :: ys, h => by
    simp only [cmpList, then_eq_iff] at h
    rw [cmp_eq x y h.1, cmpList_eq xs ys h.2]
theorem cmpPairs_eq :
    ∀ (xs ys : List (Variant × Variant)), cmpPairs xs ys = .eq → xs = ys
  | [], [], _ => rfl
  | [], _ :: _, h => by simp [cmpPairs] at h
  | _ :: _, [], h => by simp [cmpPairs] at h
  | (k, v) :: xs, (k2, v2) :: ys, h => by
    simp only [cmpPairs, then_eq_iff] at h
    rw [cmp_eq k k2 h.1.1, cmp_eq v v2 h.1.2, cmpPairs_eq xs ys h.2]
end

mutual
theorem cmp_refl : ∀ (a : Variant), cmp a a = .eq
  | null => by simp [cmp]
  | bool x => by simp [cmp, ordOf]
  | int x => by simp [cmp, ordOf]
  | decimal x => by simp [cmp, ordOf]
  | string x => by simp [cmp, ordOf]
  | object x => by simp [cmp, ordOf]
  | list xs => by simp only [cmp]; exact cmpList_refl xs
  | map xs => by simp only [cmp]; exact cmpPairs_refl xs
theorem cmpList_refl : ∀ (xs : List Variant), cmpList xs xs = .eq
  | [] => by simp [cmpList]
  | x :: xs => by simp only [cmpList, then_eq_iff]; exact ⟨cmp_refl x, cmpList_refl xs⟩
theorem cmpPairs_refl : ∀ (xs : List (Variant × Variant)), cmpPairs xs xs = .eq
  | [] => by simp [cmpPairs]
  | (k, v) :: xs => by
    simp only [cmpPairs, then_eq_iff]
    exact ⟨⟨cmp_refl k, cmp_refl v⟩, cmpPairs_refl xs⟩
end

theorem ordOf_swap {α : Type} [LinearOrder α] (a b : α) : ordOf b a = (ordOf a b).swap := by
  unfold ordOf
  rcases lt_trichotomy a b with h | h | h
  · simp [h, not_lt_of_gt h, Ordering.swap]
  · simp [h, Ordering.swap]
  · simp [h, not_lt_of_gt h, Ordering.swap]

theorem then_swap (a b : Ordering) : (a.then b).swap = a.swap.then b.swap := by
  cases a <;> cases b <;> rfl

mutual
/-- Exchanging the operands of the key comparison exchanges less and greater. -/
theorem cmp_swap : ∀ (a b : Variant), cmp b a = (cmp a b).swap
  | null, b => by cases b <;> simp [cmp, type, ordOf, Ordering.swap]
  | bool x, b => by
    cases b <;> (simp only [cmp]; exact ordOf_swap _ _)
  | int x, b => by
    cases b <;> (simp only [cmp]; exact ordOf_swap _ _)
  | decimal x, b => by
    cases b <;> (simp only [cmp]; exact ordOf_swap _ _)
  | string x, b => by
    cases b <;> (simp only [cmp]; exact ordOf_swap _ _)
  | object x, b => by
    cases b <;> (simp only [cmp]; exact ordOf_swap _ _)
  | list xs, b => by
    cases b with
    | list ys => simp only [cmp]; exact cmpList_swap xs ys
    | _ => simp [cmp, type, ordOf, Ordering.swap]
  | map xs, b => by
    cases b with
    | map ys => simp only [cmp]; exact cmpPairs_swap xs ys
    | _ => simp [cmp, type, ordOf, Ordering.swap]
theorem cmpList_swap : ∀ (xs ys : List Variant), cmpList ys xs = (cmpList xs ys).swap
  | [], [] => by simp [cmpList, Ordering.swap]
  | [], _ :: _ => by simp [cmpList, Ordering.swap]
  | _ :: _, [] => by simp [cmpList, Ordering.swap]
  | x :: xs, y :: ys => by
    simp only [cmpList, then_swap]
    rw [cmp_swap x y, cmpList_swap xs ys]
theorem cmpPairs_swap :
    ∀ (xs ys : List (Variant × Variant)), cmpPairs ys xs = (cmpPairs xs ys).swap
  | [], [] => by simp [cmpPairs, Ordering.swap]
  | [], _ :: _ => by simp [cmpPairs, Ordering.swap]
  | _ :: _, [] => by simp [cmpPairs, Ordering.swap]
  | (k, v) :: xs, (k2, v2) :: ys => by
    simp only [cmpPairs, then_swap]
    rw [cmp_swap k k2, cmp_swap v v2, cmpPairs_swap xs ys]
end

/-- Structural ("deep") equality of values is decidable. -/
instance : DecidableEq Variant := fun a b =>
  decidable_of_iff (cmp a b = .eq) ⟨cmp_eq a b, fun h => h ▸ cmp_refl a⟩

/-- Modelled from the spec: `variant::is_null`. -/
def is_null : Variant → Bool
  | null => true
  | _ => false

/-- Modelled from the spec: `variant::is_list`. -/
def is_list : Variant → Bool
  | list _ => true
  | _ => false

/-- Modelled from the spec: `variant::is_map`. -/
def is_map : Variant → Bool
  | map _ => true
  | _ => false

/-- Modelled from the spec: `variant::is_string`. -/
def is_string : Variant → Bool
  | string _ => true
  | _ => false

/-- Modelled from the spec: `variant::is_numeric`, true of integers and decimals. -/
def is_numeric : Variant → Bool
  | int _ => true
  | decimal _ => true
  | _ => false

end Variant

open Variant

/-! ## Ordered maps (`std::map<variant, T>`) as entry sequences -/

/-- The lookup `std::map::find`: the value stored under `key`, if any. -/
def map_find {β : Type} : List (Variant × β) → Variant → Option β
  | [], _ => none
  | (k, v) :: rest, key => if key = k then some v else map_find rest key

/-- Overwrites the value stored under an existing key, in place. -/
def map_replace {β : Type} : List (Variant × β) → Variant → β → List (Variant × β)
  | [], _, _ => []
  | (k, x) :: rest, key, v =>
    if key = k then (k, v) :: rest else (k, x) :: map_replace rest key v

/-- Enters a new key at its place in key order. -/
def map_insert {β : Type} : List (Variant × β) → Variant → β → List (Variant × β)
  | [], key, v => [(key, v)]
  | (k, x) :: rest, key, v =>
    if cmp key k = .lt then (key, v) :: (k, x) :: rest else (k, x) :: map_insert rest key v

/-- The assignment `m[key] = v` of `std::map`: the value under an existing key is
replaced in place, a new key is entered at its place in key order. -/
def map_assign {β : Type} (m : List (Variant × β)) (key : Variant) (v : β) :
    List (Variant × β) :=
  match map_find m key with
  | some _ => map_replace m key v
  | none => map_insert m key v

/-- The removal `m.erase(key)` of `std::map`. -/
def map_erase {β : Type} : List (Variant × β) → Variant → List (Variant × β)
  | [], _ => []
  | (k, x) :: rest, key => if key = k then rest else (k, x) :: map_erase rest key

/-- The keys of a map in iteration order (`variant::get_keys`). -/
def map_keys {β : Type} (m : List (Variant × β)) : List Variant :=
  m.map Prod.fst

/-- Modelled from the spec: attribute read `m[key]` on a map, which yields null for
an absent key. -/
def map_get (m : List (Variant × Variant)) (key : Variant) : Variant :=
  (map_find m key).getD null

/-! ## `append_variants` -/

/-- The test `xs.num_elements() > 0 && (xs[0].is_numeric() || xs[0].is_string())`
of `append_variants`.  The element access `xs[0]` is partial: `none` stands for
an access outside the list. -/
def first_is_scalar (xs : List Variant) : Option Bool :=
  if xs.length > 0 then
    match xs[0]? with
    | some x => some (x.is_numeric || x.is_string)
    | none => none
  else some false

/-- The function `append_variants(a, b)` of variant_utils.cpp.  The result is
`none` only if an element access fell outside a list. -/
def append_variants (a b : Variant) : Option Variant :=
  if a.is_null then some b
  else if b.is_null then some a
  else
    match a, b with
    | list xs, list ys =>
      match first_is_scalar ys with
      | none => none
      | some true => some b
      | some false =>
        match first_is_scalar xs with
        | none => none
        | some true => some b
        | some false => some (list (xs ++ ys))
    | list xs, _ => some (list (xs ++ [b]))
    | _, list ys => some (list ([a] ++ ys))
    | map _, map _ => some (list [a, b])
    | _, _ => some b

/-- An integer, a decimal or a string. -/
def Variant.scalar_like : Variant → Bool
  | int _ => true
  | decimal _ => true
  | string _ => true
  | _ => false

/-- The list is non-empty and its first element is an integer, a decimal or a
string. -/
def head_scalar_like : List Variant → Bool
  | [] => false
  | x :: _ => x.scalar_like

/-! ## `merge_variant_over` -/

/-- The loop of `merge_variant_over` over the keys of `b`:
`a = a.add_attr(key, append_variants(a[key], b[key]))`. -/
def merge_keys (b : List (Variant × Variant)) :
    List Variant → List (Variant × Variant) → Option (List (Variant × Variant))
  | [], a => some a
  | key :: keys, a =>
    match append_variants (map_get a key) (map_get b key) with
    | none => none
    | some v => merge_keys b keys (map_assign a key v)

/-- The function `merge_variant_over(aptr, b)` of variant_utils.cpp on two maps; the
result is the new value of `*aptr`.  Operands that are not maps are outside the
model (`get_keys` and attribute access are map operations) and give `none`, as
does a failed element access in `append_variants`. -/
def merge_variant_over : Variant → Variant → Option Variant
  | map a, map b => (merge_keys b (map_keys b) a).map map
  | _, _ => none

/-! ## `smart_merge_variants` -/

/-- Modelled from the spec: the macro `ASSERT_LOG` (asserts.hpp is missing) reports
an error that ends the operation and propagates to the immediate caller.  The
outcome of `smart_merge_variants(dst_ptr, src)` is that the call returned
(`done`) or that the assertion reported incompatible types (`failed`); in both
cases it carries the value `*dst_ptr` holds at that moment. -/
inductive MergeResult where
  | done (dst : Variant)
  | failed (dst : Variant)
  deriving DecidableEq

/-- Outcome of the loop over the entries of `src`, with the entries of `dst`. -/
inductive EntriesResult where
  | done (dst : List (Variant × Variant))
  | failed (dst : List (Variant × Variant))
  deriving DecidableEq

mutual
/-- The function `smart_merge_variants(dst_ptr, src)` of variant_utils.cpp. -/
def smart_merge_variants : Variant → Variant → MergeResult
  | map d, map s =>
    match smart_merge_entries d s with
    | .done d2 => .done (map d2)
    | .failed d2 => .failed (map d2)
  | list d, list s => .done (list (d ++ s))
  | dst, src =>
    if src.type = dst.type || src.is_null || dst.is_null then .done src
    else .failed dst
/-- The loop `for(auto p : src.as_map())` of `smart_merge_variants`: an absent key
is added with `add_attr`, a present one is merged into through the slot that
`get_attr_mutable` points to. -/
def smart_merge_entries :
    List (Variant × Variant) → List (Variant × Variant) → EntriesResult
  | d, [] => .done d
  | d, (k, v) :: rest =>
    match map_find d k with
    | none => smart_merge_entries (map_assign d k v) rest
    | some slot =>
      match smart_merge_variants slot v with
      | .done slot2 => smart_merge_entries (map_replace d k slot2) rest
      | .failed slot2 => .failed (map_replace d k slot2)
end

/-- Whether the call returned without reporting an error. -/
def MergeResult.ok : MergeResult → Bool
  | .done _ => true
  | .failed _ => false

/-! ## `variant_builder` -/

/-- The class `variant_builder`: its only member `attr_`, a
`std::map<variant, std::vector<variant> >`. -/
structure variant_builder where
  attr_ : List (Variant × List Variant)
  deriving DecidableEq

namespace variant_builder

/-- A freshly constructed builder. -/
def empty : variant_builder := ⟨[]⟩

/-- The method `add_value(name, val)`: `attr_[variant(name)].push_back(val)`, where
`attr_[key]` first enters an empty vector under a key that is absent. -/
def add_value (b : variant_builder) (name : String) (val : Variant) : variant_builder :=
  ⟨map_assign b.attr_ (string name) ((map_find b.attr_ (string name)).getD [] ++ [val])⟩

/-- The method `set_value(name, val)`: `attr_.erase(key)` followed by
`attr_[key].push_back(val)`. -/
def set_value (b : variant_builder) (name : String) (val : Variant) : variant_builder :=
  let erased := map_erase b.attr_ (string name)
  ⟨map_assign erased (string name) ((map_find erased (string name)).getD [] ++ [val])⟩

/-- The value that `build` stores for one entry of `attr_`: the element itself when
the vector has size 1, the list of the vector otherwise. -/
def build_value : List Variant → Variant
  | [x] => x
  | vec => list vec

/-- The loop of `build`: `res[i->first] = ...` for the entries of `attr_` in order. -/
def build_entries :
    List (Variant × List Variant) → List (Variant × Variant) → List (Variant × Variant)
  | [], res => res
  | (k, vec) :: rest, res => build_entries rest (map_assign res k (build_value vec))

/-- The method `build()`. -/
def build (b : variant_builder) : Variant :=
  map (build_entries b.attr_ [])

end variant_builder

/-- One call on a builder: `add_value(name, val)` or `set_value(name, val)`. -/
inductive BuilderCall where
  | add_value (name : String) (val : Variant)
  | set_value (name : String) (val : Variant)
  deriving DecidableEq

/-- The name a call is made with. -/
def BuilderCall.name : BuilderCall → String
  | .add_value n _ => n
  | .set_value n _ => n

/-- Performs one call on a builder. -/
def variant_builder.call (b : variant_builder) : BuilderCall → variant_builder
  | .add_value n v => b.add_value n v
  | .set_value n v => b.set_value n v

/-- Performs a sequence of calls, in order. -/
def variant_builder.calls (b : variant_builder) (cs : List BuilderCall) : variant_builder :=
  cs.foldl variant_builder.call b

/-- Going back from the most recent call (the head of `recent`) to older ones: the
values given for `name`, most recent first, back to and including the most recent
`set_value` for `name`. -/
def since_last_set (name : String) : List BuilderCall → List Variant
  | [] => []
  | .add_value n v :: older =>
    if n = name then v :: since_last_set name older else since_last_set name older
  | .set_value n v :: older =>
    if n = name then [v] else since_last_set name older

/-- The contributions for `name` after the calls `cs`, in call order: the values
given for `name` from its most recent `set_value` on, or all added values when
`name` was never set. -/
def contributions (name : String) (cs : List BuilderCall) : List Variant :=
  (since_last_set name cs.reverse).reverse

/-! ## `variant_builder::merge_object` -/

/-- Modelled from the spec: `variant::as_string`, the string held by a string value;
every other kind of value is a type error (`none`). -/
def Variant.as_string : Variant → Option String
  | string s => some s
  | _ => none

/-- The loop of `merge_object` over the keys of `obj`:
`set_value(key.as_string(), obj[key])`. -/
def merge_object_keys (obj : List (Variant × Variant)) :
    List Variant → variant_builder → Option variant_builder
  | [], b => some b
  | key :: keys, b =>
    match key.as_string with
    | none => none
    | some name => merge_object_keys obj keys (b.set_value name (map_get obj key))

/-- The method `variant_builder::merge_object(obj)`.  The result is `none` when
`obj` is not a map (`get_keys` is a map operation) or a key is not a string. -/
def variant_builder.merge_object (b : variant_builder) : Variant → Option variant_builder
  | map obj => merge_object_keys obj (map_keys obj) b
  | _ => none

/-! ## `visit_variants` -/

mutual
/-- The function `visit_variants(v, fn)` of variant_utils.cpp.  The callback `fn`
acts on a state of type `σ`; the result is the state after all calls. -/
def visit_variants {σ : Type} (fn : Variant → σ → σ) : Variant → σ → σ
  | list items, s => visit_items fn items (fn (list items) s)
  | map entries, s => visit_entries fn entries (fn (map entries) s)
  | v, s => fn v s
/-- The loop `foreach(const variant& item, v.as_list())` of `visit_variants`. -/
def visit_items {σ : Type} (fn : Variant → σ → σ) : List Variant → σ → σ
  | [], s => s
  | x :: xs, s => visit_items fn xs (visit_variants fn x s)
/-- The loop `foreach(const variant_pair& item, v.as_map())` of `visit_variants`,
which visits `item.second`. -/
def visit_entries {σ : Type} (fn : Variant → σ → σ) : List (Variant × Variant) → σ → σ
  | [], s => s
  | (_, v) :: rest, s => visit_entries fn rest (visit_variants fn v s)
end

mutual
/-- The nodes of a value in pre-order: the value itself, then the nodes of each
element of a list in index order, or of each value of a map in the order of its
entries (ascending key order); keys are not nodes. -/
def preorder : Variant → List Variant
  | list items => list items :: preorder_items items
  | map entries => map entries :: preorder_entries entries
  | v => [v]
/-- The nodes of the elements of a list, element after element. -/
def preorder_items : List Variant → List Variant
  | [] => []
  | x :: xs => preorder x ++ preorder_items xs
/-- The nodes of the values of a map, entry after entry. -/
def preorder_entries : List (Variant × Variant) → List Variant
  | [] => []
  | (_, v) :: rest => preorder v ++ preorder_entries rest
end

/-! ## `deep_copy_variant` -/

/-- Whether each key is below every later key in the key order. -/
def keys_ascending : List Variant → Bool
  | [] => true
  | k :: ks => ks.all (fun k2 => cmp k k2 = .lt) && keys_ascending ks

mutual
/-- The invariant of values: every map, at any depth, holds its entries in
ascending key order (the invariant of `std::map`). -/
def Variant.wf : Variant → Bool
  | list items => wf_items items
  | map entries => keys_ascending (entries.map Prod.fst) && wf_entries entries
  | _ => true
/-- The invariant for the elements of a list. -/
def wf_items : List Variant → Bool
  | [] => true
  | x :: xs => x.wf && wf_items xs
/-- The invariant for the keys and values of the entries of a map. -/
def wf_entries : List (Variant × Variant) → Bool
  | [] => true
  | (k, v) :: rest => k.wf && v.wf && wf_entries rest
end

theorem sizeOf_map_get_lt (entries : List (Variant × Variant)) (key : Variant) :
    sizeOf (map_get entries key) < 1 + sizeOf entries := by
  induction entries with
  | nil => simp [map_get, map_find]
  | cons p rest ih =>
    obtain ⟨k, v⟩ := p
    by_cases h : key = k
    · simp [map_get, map_find, h]; omega
    · simp only [map_get, map_find, h, if_false] at ih ⊢
      simp only [List.cons.sizeOf_spec]
      omega

mutual
/-- The function `deep_copy_variant(v)` of variant_utils.cpp. -/
def deep_copy_variant : Variant → Variant
  | map entries => map (deep_copy_keys entries (map_keys entries) [])
  | list items => list (deep_copy_items items)
  | v => v
termination_by v => (sizeOf v, 1, 0)
decreasing_by
  all_goals simp_wf
  · simp [Prod.lex_def]
  · simp [Prod.lex_def]
/-- The loop `m[key] = deep_copy_variant(v[key])` over the keys of the map `v`, whose
entries are `entries`. -/
def deep_copy_keys (entries : List (Variant × Variant)) :
    List Variant → List (Variant × Variant) → List (Variant × Variant)
  | [], m => m
  | key :: keys, m =>
    deep_copy_keys entries keys (map_assign m key (deep_copy_variant (map_get entries key)))
termination_by keys => (1 + sizeOf entries, 0, keys.length)
decreasing_by
  all_goals simp_wf
  · simp [Prod.lex_def]
    exact sizeOf_map_get_lt entries key
  · simp [Prod.lex_def]
/-- The loop `items.push_back(deep_copy_variant(item))` over the elements of a list. -/
def deep_copy_items : List Variant → List Variant
  | [] => []
  | x :: xs => deep_copy_variant x :: deep_copy_items xs
termination_by xs => (sizeOf xs, 0, 0)
decreasing_by
  all_goals simp_wf
  · simp [Prod.lex_def]; omega
  · simp [Prod.lex_def]
end

/-! ## `parse_variant_list_or_csv_string` -/

/-- Modelled from the spec: `variant::as_list_string`, which converts each element of
a list to its string form.  A string element is its own string form; the
conversion `form` of the other kinds of element (possibly failing) is not
specified and is a parameter. -/
def as_list_string (form : Variant → Option String) : List Variant → Option (List String)
  | [] => some []
  | x :: xs =>
    match (match x with | string s => some s | _ => form x), as_list_string form xs with
    | some s, some rest => some (s :: rest)
    | _, _ => none

/-- The function `parse_variant_list_or_csv_string(v)` of variant_utils.cpp; `none`
stands for a reported error.  The tokenizer `util::split` (string_utils) is not
among the sources and is the parameter `split`. -/
def parse_variant_list_or_csv_string (split : String → List String)
    (form : Variant → Option String) : Variant → Option (List String)
  | string s => some (split s)
  | list items => as_list_string form items
  | null => some []
  | _ => none

/-! ## The constant scope stack (`formula_constants.cpp`) -/

/-- The type `constants_map`, a `std::map<std::string, variant>`, as the sequence of
its entries in key order. -/
abbrev constants_map := List (String × Variant)

/-- The ordering of `std::string` keys: lexicographic on the characters. -/
def str_lt (a b : String) : Bool :=
  decide (a.toList < b.toList)

/-- The lookup `m.find(id)` in a `constants_map`. -/
def cmap_find : constants_map → String → Option Variant
  | [], _ => none
  | (k, v) :: rest, id => if id = k then some v else cmap_find rest id

/-- Overwrites the value stored under an existing name, in place. -/
def cmap_replace : constants_map → String → Variant → constants_map
  | [], _, _ => []
  | (k, x) :: rest, attr, v =>
    if attr = k then (k, v) :: rest else (k, x) :: cmap_replace rest attr v

/-- Enters a new name at its place in key order. -/
def cmap_insert : constants_map → String → Variant → constants_map
  | [], attr, v => [(attr, v)]
  | (k, x) :: rest, attr, v =>
    if str_lt attr k then (attr, v) :: (k, x) :: rest else (k, x) :: cmap_insert rest attr v

/-- The assignment `m[attr] = v` in a `constants_map`. -/
def cmap_assign (m : constants_map) (attr : String) (v : Variant) : constants_map :=
  match cmap_find m attr with
  | some _ => cmap_replace m attr v
  | none => cmap_insert m attr v

/-- The logical controls whose key names `get_constant` reports. -/
inductive Control where
  | up
  | down
  | left
  | right
  | jump
  | tongue
  | attack
  deriving DecidableEq

/-- The external collaborators that `get_constant` queries (preferences, graphics,
controls, i18n, decimal and the build), none of which is among the sources: each
field is the value the named query returns. -/
structure Env where
  /-- The value `variant(preferences::double_scale())`. -/
  double_scale : Variant
  /-- The value of `graphics::screen_width()`. -/
  screen_width : Int
  /-- The value of `graphics::screen_height()`. -/
  screen_height : Int
  /-- Whether the build has `TARGET_OS_HARMATTAN || TARGET_OS_IPHONE ||
  TARGET_BLACKBERRY || defined(__ANDROID__)`. -/
  mobile_target : Bool
  /-- The value of `preferences::sim_iphone()`. -/
  sim_iphone : Bool
  /-- The conversion `variant::as_bool`. -/
  as_bool : Variant → Bool
  /-- The value `variant(b)` built from a C++ `bool`. -/
  variant_of_bool : Bool → Variant
  /-- The value of `preferences::get_tbs_uri().host()`. -/
  tbs_host : String
  /-- The value of `atoi(preferences::get_tbs_uri().port().c_str())`. -/
  tbs_port : Int
  /-- The value of `preferences::get_username()`. -/
  username : String
  /-- The value of `preferences::get_password()`. -/
  password : String
  /-- The value of `gui::get_key_name(controls::get_keycode(c))`. -/
  key_name : Control → String
  /-- The value of `i18n::get_locale()`. -/
  locale : String
  /-- The raw value of `decimal::epsilon()`. -/
  epsilon : Int
  /-- The value of `preferences::get_build_options()`. -/
  build_options : List String

/-- The value `get_constant("LOW_END_SYSTEM")` returns. -/
def low_end_system (env : Env) : Variant :=
  if env.mobile_target then int 1 else int 0

/-- The chain of name comparisons at the head of `get_constant`: the value returned
for a fixed name, `none` when the chain falls through to the stack search.  The
inner call `get_constant("LOW_END_SYSTEM")` of the `HIGH_END_SYSTEM` branch
returns in the `LOW_END_SYSTEM` branch, so it is `low_end_system`. -/
def fixed_constant (env : Env) (id : String) : Option Variant :=
  if id = "DOUBLE_SCALE" then some env.double_scale
  else if id = "SCREEN_WIDTH" then some (int env.screen_width)
  else if id = "SCREEN_HEIGHT" then some (int env.screen_height)
  else if id = "LOW_END_SYSTEM" then some (low_end_system env)
  else if id = "IPHONE_SYSTEM" then
    some (if env.mobile_target then int 1 else int (if env.sim_iphone then 1 else 0))
  else if id = "HIGH_END_SYSTEM" then
    some (env.variant_of_bool (!env.as_bool (low_end_system env)))
  else if id = "TBS_SERVER_ADDRESS" then some (string env.tbs_host)
  else if id = "TBS_SERVER_PORT" then some (int env.tbs_port)
  else if id = "USERNAME" then some (string env.username)
  else if id = "PASSWORD" then some (string env.password)
  else if id = "UP_KEY" then some (string (env.key_name .up))
  else if id = "DOWN_KEY" then some (string (env.key_name .down))
  else if id = "LEFT_KEY" then some (string (env.key_name .left))
  else if id = "RIGHT_KEY" then some (string (env.key_name .right))
  else if id = "JUMP_KEY" then some (string (env.key_name .jump))
  else if id = "TONGUE_KEY" then some (string (env.key_name .tongue))
  else if id = "ATTACK_KEY" then some (string (env.key_name .attack))
  else if id = "LOCALE" then some (string env.locale)
  else if id = "EPSILON" then some (decimal env.epsilon)
  else if id = "HEX_DIRECTIONS" then
    some (list [string "n", string "ne", string "se", string "s", string "sw", string "nw"])
  else if id = "BUILD_OPTIONS" then some (list (env.build_options.map string))
  else none

/-- The loop of `get_constant` from `constants_stack.rbegin()` to `rend()`, over the
frames most recent first. -/
def find_in_frames : List constants_map → String → Variant
  | [], _ => null
  | m :: older, id =>
    match cmap_find m id with
    | some v => v
    | none => find_in_frames older id

/-- The function `get_constant(id)` of formula_constants.cpp; `stack` is the global
`constants_stack`, whose back is the last element. -/
def get_constant (env : Env) (stack : List constants_map) (id : String) : Variant :=
  match fixed_constant env id with
  | some v => v
  | none => find_in_frames stack.reverse id

/-- The names that `get_constant` resolves from the environment. -/
def fixed_names : List String :=
  ["DOUBLE_SCALE", "SCREEN_WIDTH", "SCREEN_HEIGHT", "LOW_END_SYSTEM", "IPHONE_SYSTEM",
    "HIGH_END_SYSTEM", "TBS_SERVER_ADDRESS", "TBS_SERVER_PORT", "USERNAME", "PASSWORD",
    "UP_KEY", "DOWN_KEY", "LEFT_KEY", "RIGHT_KEY", "JUMP_KEY", "TONGUE_KEY", "ATTACK_KEY",
    "LOCALE", "EPSILON", "HEX_DIRECTIONS", "BUILD_OPTIONS"]

/-- Modelled from the spec: `util::c_islower` (string_utils is missing), true of the
lower-case characters `a` to `z`. -/
def c_islower (c : Char) : Bool :=
  c.isLower

/-- The test `std::find_if(attr.begin(), attr.end(), util::c_islower) != attr.end()`. -/
def has_lower (attr : String) : Bool :=
  attr.toList.any c_islower

/-- The loop of the `constants_loader` constructor over the keys of `node`: a key
with a lower-case character is skipped, any other is loaded with
`m[attr] = node[key]`.  A key that is not a string makes `as_string` fail. -/
def load_constants (node : List (Variant × Variant)) :
    List Variant → constants_map → Option constants_map
  | [], m => some m
  | key :: keys, m =>
    match key.as_string with
    | none => none
    | some attr =>
      if has_lower attr then load_constants node keys m
      else load_constants node keys (cmap_assign m attr (map_get node key))

/-- The frame `m` that the `constants_loader` constructor builds from `node`: empty
for a null node, loaded from the keys of a map; `get_keys` fails on any other
value. -/
def new_frame : Variant → Option constants_map
  | null => some []
  | map entries => load_constants entries (map_keys entries) []
  | _ => none

/-- The class `constants_loader`: its member `same_as_base_`. -/
structure constants_loader where
  same_as_base_ : Bool
  deriving DecidableEq

/-- The constructor `constants_loader(node)` of class `constants_loader`: the constructed
object and the new `constants_stack`, or `none` when building the frame
failed. -/
def constants_loader.constructor (stack : List constants_map) (node : Variant) :
    Option (constants_loader × List constants_map) :=
  match new_frame node with
  | none => none
  | some m =>
    some (⟨stack.isEmpty == false && decide (stack.getLast? = some m)⟩, stack ++ [m])

/-- Modelled from the spec: the macro `ASSERT_EQ` (asserts.hpp is missing) is fatal
when its operands differ.  The destructor `constants_loader::~constants_loader()`
gives the new `constants_stack`, or `none` for the fatal error. -/
def constants_loader.destructor (stack : List constants_map) : Option (List constants_map) :=
  if stack.isEmpty == false then some stack.dropLast else none

/-- One scope operation: entering a scope with a node, or exiting the innermost
one. -/
inductive ScopeOp where
  | enter (node : Variant)
  | exit
  deriving DecidableEq

/-- Performs a sequence of scope operations on the stack; `none` when one fails. -/
def run_scopes : List ScopeOp → List constants_map → Option (List constants_map)
  | [], stack => some stack
  | .enter node :: ops, stack =>
    match constants_loader.constructor stack node with
    | none => none
    | some (_, stack2) => run_scopes ops stack2
  | .exit :: ops, stack =>
    match constants_loader.destructor stack with
    | none => none
    | some stack2 => run_scopes ops stack2

/-- Whether, with `opened` scopes entered and not yet exited, each exit in the
sequence is matched with an earlier enter not yet exited. -/
def exits_matched : Nat → List ScopeOp → Bool
  | _, [] => true
  | opened, .enter _ :: ops => exits_matched (opened + 1) ops
  | 0, .exit :: _ => false
  | opened + 1, .exit :: ops => exits_matched opened ops

/-- The number of scopes entered and not yet exited after the sequence, starting
with `opened` of them. -/
def open_scopes : Nat → List ScopeOp → Nat
  | opened, [] => opened
  | opened, .enter _ :: ops => open_scopes (opened + 1) ops
  | opened, .exit :: ops => open_scopes (opened - 1) ops

/-- Whether the `constants_loader` constructor does not skip the key: a string key
without a lower-case character (a key that is not a string is not skipped
either: it makes the constructor fail). -/
def kept_key (k : Variant) : Bool :=
  match k.as_string with
  | some attr => !has_lower attr
  | none => true

/-- Whether the operation is an exit, or an enter with a node from which the
constructor can build a frame (null or a map whose keys are strings). -/
def ScopeOp.accepted : ScopeOp → Bool
  | .enter node => (new_frame node).isSome
  | .exit => true

/-- An environment for the worked examples: an 800 by 600 desktop build. -/
def example_env : Env where
  double_scale := int 0
  screen_width := 800
  screen_height := 600
  mobile_target := false
  sim_iphone := false
  as_bool := fun v => decide (v ≠ int 0)
  variant_of_bool := Variant.bool
  tbs_host := "localhost"
  tbs_port := 23456
  username := "player"
  password := ""
  key_name := fun _ => "space"
  locale := "en_US"
  epsilon := 1
  build_options := []

/-! ## Facts about the entry-sequence operations -/

theorem map_find_eq_none_iff {β : Type} (m : List (Variant × β)) (key : Variant) :
    map_find m key = none ↔ key ∉ map_keys m := by
  induction m with
  | nil => simp [map_find, map_keys]
  | cons p rest ih =>
    obtain ⟨k, x⟩ := p
    by_cases hk : key = k
    · simp [map_find, map_keys, hk]
    · simpa [map_find, map_keys, hk] using ih

theorem map_find_isSome_iff {β : Type} (m : List (Variant × β)) (key : Variant) :
    (∃ v, map_find m key = some v) ↔ key ∈ map_keys m := by
  rw [← not_iff_not, ← map_find_eq_none_iff]
  cases map_find m key <;> simp

theorem map_find_replace {β : Type} (m : List (Variant × β)) (key : Variant) (v : β)
    (k : Variant) :
    map_find (map_replace m key v) k =
      if k = key then (map_find m key).map (fun _ => v) else map_find m k := by
  induction m with
  | nil => simp [map_find, map_replace]
  | cons p rest ih =>
    obtain ⟨k0, x⟩ := p
    by_cases h0 : key = k0
    · subst h0
      by_cases hk : k = key
      · simp [map_find, map_replace, hk]
      · simp [map_find, map_replace, hk]
    · by_cases hk : k = key
      · subst hk
        simp [map_find, map_replace, h0] at ih ⊢
        exact ih
      · by_cases hk0 : k = k0
        · subst hk0
          simp [map_find, map_replace, h0, hk]
        · simp [map_find, map_replace, h0, hk, hk0] at ih ⊢
          exact ih

theorem map_find_insert_other {β : Type} (m : List (Variant × β)) (key : Variant) (v : β)
    (k : Variant) (hk : k ≠ key) :
    map_find (map_insert m key v) k = map_find m k := by
  induction m with
  | nil => simp [map_find, map_insert, hk]
  | cons p rest ih =>
    obtain ⟨k0, x⟩ := p
    by_cases hlt : cmp key k0 = .lt
    · simp [map_find, map_insert, hlt, hk]
    · by_cases hk0 : k = k0
      · simp [map_find, map_insert, hlt, hk0]
      · simp [map_find, map_insert, hlt, hk0, ih]

theorem map_find_insert_same {β : Type} (m : List (Variant × β)) (key : Variant) (v : β)
    (habs : map_find m key = none) :
    map_find (map_insert m key v) key = some v := by
  induction m with
  | nil => simp [map_find, map_insert]
  | cons p rest ih =>
    obtain ⟨k0, x⟩ := p
    by_cases h0 : key = k0
    · simp [map_find, h0] at habs
    · simp only [map_find, h0, if_false] at habs
      by_cases hlt : cmp key k0 = .lt
      · simp [map_find, map_insert, hlt]
      · simp [map_find, map_insert, hlt, h0, ih habs]

/-- After `m[key] = v` the map holds `v` under `key` and is unchanged elsewhere. -/
theorem map_find_assign {β : Type} (m : List (Variant × β)) (key : Variant) (v : β)
    (k : Variant) :
    map_find (map_assign m key v) k = if k = key then some v else map_find m k := by
  unfold map_assign
  cases hf : map_find m key with
  | none =>
    by_cases hk : k = key
    · subst hk; simp [map_find_insert_same m k v hf]
    · simp [hk, map_find_insert_other m key v k hk]
  | some x =>
    simp only [map_find_replace, hf]
    by_cases hk : k = key <;> simp [hk]

/-- Under a key that is present, `m[key] = v` overwrites the slot in place. -/
theorem map_assign_of_found {β : Type} (m : List (Variant × β)) (key : Variant) (v x : β)
    (h : map_find m key = some x) : map_assign m key v = map_replace m key v := by
  simp [map_assign, h]

theorem map_keys_assign {β : Type} (m : List (Variant × β)) (key : Variant) (v : β)
    (k : Variant) :
    k ∈ map_keys (map_assign m key v) ↔ k = key ∨ k ∈ map_keys m := by
  rw [← map_find_isSome_iff, ← map_find_isSome_iff, map_find_assign]
  by_cases hk : k = key
  · simp [hk]
  · simp [hk]

theorem map_keys_replace {β : Type} (m : List (Variant × β)) (key : Variant) (v : β) :
    map_keys (map_replace m key v) = map_keys m := by
  induction m with
  | nil => simp [map_replace]
  | cons p rest ih =>
    obtain ⟨k0, x⟩ := p
    by_cases h0 : key = k0
    · simp [map_replace, map_keys, h0]
    · simp only [map_keys] at ih
      simp [map_replace, map_keys, h0, ih]

theorem map_keys_insert_perm {β : Type} (m : List (Variant × β)) (key : Variant) (v : β) :
    (map_keys (map_insert m key v)).Perm (key :: map_keys m) := by
  induction m with
  | nil => simp [map_insert, map_keys]
  | cons p rest ih =>
    obtain ⟨k0, x⟩ := p
    by_cases hlt : cmp key k0 = .lt
    · simp [map_insert, map_keys, hlt]
    · simp only [map_keys] at ih
      simp only [map_insert, hlt, if_false, map_keys, List.map_cons]
      exact (List.Perm.cons k0 ih).trans (List.Perm.swap key k0 _)

/-- The assignment `m[key] = v` keeps the keys of a map distinct. -/
theorem map_keys_assign_nodup {β : Type} (m : List (Variant × β)) (key : Variant) (v : β)
    (h : (map_keys m).Nodup) : (map_keys (map_assign m key v)).Nodup := by
  unfold map_assign
  cases hf : map_find m key with
  | none =>
    have hnot : key ∉ map_keys m := (map_find_eq_none_iff m key).1 hf
    exact (map_keys_insert_perm m key v).nodup_iff.2 (List.nodup_cons.2 ⟨hnot, h⟩)
  | some x =>
    simp only [map_keys_replace]
    exact h

theorem map_find_erase_other {β : Type} (m : List (Variant × β)) (key k : Variant)
    (hk : k ≠ key) : map_find (map_erase m key) k = map_find m k := by
  induction m with
  | nil => simp [map_erase]
  | cons p rest ih =>
    obtain ⟨k0, x⟩ := p
    by_cases h0 : key = k0
    · subst h0; simp [map_erase, map_find, hk]
    · by_cases hk0 : k = k0
      · simp [map_erase, map_find, h0, hk0]
      · simp [map_erase, map_find, h0, hk0, ih]

theorem map_keys_erase_sublist {β : Type} (m : List (Variant × β)) (key : Variant) :
    (map_keys (map_erase m key)).Sublist (map_keys m) := by
  induction m with
  | nil => simp [map_erase]
  | cons p rest ih =>
    obtain ⟨k0, x⟩ := p
    by_cases h0 : key = k0
    · simp [map_erase, map_keys, h0]
    · simp only [map_keys] at ih
      simp [map_erase, map_keys, h0, ih]

theorem map_find_erase_same {β : Type} (m : List (Variant × β)) (key : Variant)
    (h : (map_keys m).Nodup) : map_find (map_erase m key) key = none := by
  induction m with
  | nil => simp [map_erase, map_find]
  | cons p rest ih =>
    obtain ⟨k0, x⟩ := p
    simp only [map_keys, List.map_cons, List.nodup_cons] at h
    by_cases h0 : key = k0
    · subst h0
      simp only [map_erase, if_true]
      exact (map_find_eq_none_iff rest key).2 h.1
    · simp [map_erase, map_find, h0, ih h.2]

theorem map_keys_erase_nodup {β : Type} (m : List (Variant × β)) (key : Variant)
    (h : (map_keys m).Nodup) : (map_keys (map_erase m key)).Nodup :=
  (map_keys_erase_sublist m key).nodup h

/-! ## Facts about `smart_merge_variants` -/

theorem smart_merge_entries_nil (d : List (Variant × Variant)) :
    smart_merge_entries d [] = .done d := by
  simp [smart_merge_entries]

theorem smart_merge_entries_cons (d : List (Variant × Variant)) (k v : Variant)
    (rest : List (Variant × Variant)) :
    smart_merge_entries d ((k, v) :: rest) =
      match map_find d k with
      | none => smart_merge_entries (map_assign d k v) rest
      | some slot =>
        match smart_merge_variants slot v with
        | .done slot2 => smart_merge_entries (map_replace d k slot2) rest
        | .failed slot2 => .failed (map_replace d k slot2) := by
  simp [smart_merge_entries]

theorem smart_merge_variants_map_map (d s : List (Variant × Variant)) :
    smart_merge_variants (map d) (map s) =
      match smart_merge_entries d s with
      | .done d2 => .done (map d2)
      | .failed d2 => .failed (map d2) := by
  simp [smart_merge_variants]

theorem smart_merge_variants_list_list (d s : List Variant) :
    smart_merge_variants (list d) (list s) = .done (list (d ++ s)) := by
  simp [smart_merge_variants]

theorem smart_merge_variants_other (dst src : Variant)
    (hm : ¬(dst.is_map = true ∧ src.is_map = true))
    (hl : ¬(dst.is_list = true ∧ src.is_list = true)) :
    smart_merge_variants dst src =
      if src.type = dst.type || src.is_null || dst.is_null then .done src else .failed dst := by
  cases dst <;> cases src <;> simp_all [smart_merge_variants, is_map, is_list]

theorem map_find_cons_ne {β : Type} (k0 : Variant) (x : β) (rest : List (Variant × β))
    (k : Variant) (h : k ≠ k0) : map_find ((k0, x) :: rest) k = map_find rest k := by
  simp [map_find, h]

theorem map_find_cons_self {β : Type} (k0 : Variant) (x : β) (rest : List (Variant × β)) :
    map_find ((k0, x) :: rest) k0 = some x := by
  simp [map_find]

/-- What a successful run of the loop of `smart_merge_variants` leaves in `dst`. -/
theorem smart_merge_entries_done (s : List (Variant × Variant)) :
    ∀ (d r : List (Variant × Variant)), (map_keys s).Nodup →
      smart_merge_entries d s = .done r →
      (∀ k, k ∉ map_keys s → map_find r k = map_find d k)
      ∧ (∀ k sv, map_find s k = some sv → map_find d k = none → map_find r k = some sv)
      ∧ (∀ k sv dv, map_find s k = some sv → map_find d k = some dv →
          ∃ x, smart_merge_variants dv sv = .done x ∧ map_find r k = some x)
      ∧ ((map_keys d).Nodup → (map_keys r).Nodup) := by
  induction s with
  | nil =>
    intro d r _ h
    rw [smart_merge_entries_nil] at h
    injection h with h
    subst h
    refine ⟨fun _ _ => rfl, ?_, ?_, id⟩
    · intro k sv hs; simp [map_find] at hs
    · intro k sv dv hs; simp [map_find] at hs
  | cons p rest ih =>
    obtain ⟨k0, v0⟩ := p
    intro d r hnd h
    have hnd2 : k0 ∉ map_keys rest ∧ (map_keys rest).Nodup := by
      simpa [map_keys] using hnd
    rw [smart_merge_entries_cons] at h
    -- the step taken for the first entry, as one assignment `d[k0] = w`
    have step : ∃ w, smart_merge_entries (map_assign d k0 w) rest = .done r
        ∧ (map_find d k0 = none → w = v0)
        ∧ (∀ dv, map_find d k0 = some dv → smart_merge_variants dv v0 = .done w) := by
      cases hf : map_find d k0 with
      | none =>
        simp only [hf] at h
        exact ⟨v0, h, fun _ => rfl, fun dv hdv => by simp at hdv⟩
      | some slot =>
        simp only [hf] at h
        cases hm : smart_merge_variants slot v0 with
        | done slot2 =>
          simp only [hm] at h
          rw [← map_assign_of_found d k0 slot2 slot hf] at h
          refine ⟨slot2, h, fun hn => by simp at hn, ?_⟩
          intro dv hdv
          injection hdv with hdv
          subst hdv
          exact hm
        | failed slot2 => simp [hm] at h
    obtain ⟨w, hrest, hw1, hw2⟩ := step
    obtain ⟨i1, i2, i3, i4⟩ := ih (map_assign d k0 w) r hnd2.2 hrest
    have hk0 : map_find r k0 = some w := by
      rw [i1 k0 hnd2.1, map_find_assign]; simp
    refine ⟨?_, ?_, ?_, ?_⟩
    · intro k hk
      have hk2 : k ≠ k0 ∧ k ∉ map_keys rest := by
        simpa [map_keys, not_or] using hk
      rw [i1 k hk2.2, map_find_assign]
      simp [hk2.1]
    · intro k sv hs hd
      by_cases hk : k = k0
      · subst hk
        rw [map_find_cons_self] at hs
        injection hs with hs
        rw [hk0, hw1 hd, hs]
      · rw [map_find_cons_ne _ _ _ _ hk] at hs
        apply i2 k sv hs
        rw [map_find_assign]; simp [hk, hd]
    · intro k sv dv hs hd
      by_cases hk : k = k0
      · subst hk
        rw [map_find_cons_self] at hs
        injection hs with hs
        subst hs
        exact ⟨w, hw2 dv hd, hk0⟩
      · rw [map_find_cons_ne _ _ _ _ hk] at hs
        apply i3 k sv dv hs
        rw [map_find_assign]; simp [hk, hd]
    · intro hd
      exact i4 (map_keys_assign_nodup d k0 w hd)

/-- C1: when `smart_merge_variants` succeeds on two maps, the new `dst` is a map
whose keys are those of `dst` and of `src` together; a key only in `dst` keeps
its value, a key only in `src` gets the value of `src`, and a key in both gets
the result of smart-merging the value of `src` into the old value of `dst`.  The
keys of `src` are distinct, as in every map. -/
theorem smart_merge_variants_maps (d s : List (Variant × Variant)) (r : Variant)
    (hs : (map_keys s).Nodup)
    (h : smart_merge_variants (map d) (map s) = .done r) :
    ∃ m, r = map m
      ∧ (∀ k, k ∈ map_keys m ↔ k ∈ map_keys d ∨ k ∈ map_keys s)
      ∧ (∀ k, k ∈ map_keys d → k ∉ map_keys s → map_find m k = map_find d k)
      ∧ (∀ k, k ∉ map_keys d → k ∈ map_keys s → map_find m k = map_find s k)
      ∧ (∀ k dv sv, map_find d k = some dv → map_find s k = some sv →
          ∃ x, smart_merge_variants dv sv = .done x ∧ map_find m k = some x)
      ∧ ((map_keys d).Nodup → (map_keys m).Nodup) := by
  rw [smart_merge_variants_map_map] at h
  cases he : smart_merge_entries d s with
  | failed d2 => simp [he] at h
  | done m =>
    simp only [he] at h
    injection h with h
    obtain ⟨i1, i2, i3, i4⟩ := smart_merge_entries_done s d m hs he
    refine ⟨m, h.symm, ?_, fun k _ hk => i1 k hk, ?_,
      fun k dv sv hd hs => i3 k sv dv hs hd, i4⟩
    · intro k
      by_cases hks : k ∈ map_keys s
      · obtain ⟨sv, hsv⟩ := (map_find_isSome_iff s k).2 hks
        cases hd : map_find d k with
        | none =>
          have := i2 k sv hsv hd
          simp [hks, ← map_find_isSome_iff m k, this]
        | some dv =>
          obtain ⟨x, _, hx⟩ := i3 k sv dv hsv hd
          simp [hks, ← map_find_isSome_iff m k, hx]
      · rw [← map_find_isSome_iff m k, i1 k hks, map_find_isSome_iff]
        simp [hks]
    · intro k hkd hks
      obtain ⟨sv, hsv⟩ := (map_find_isSome_iff s k).2 hks
      rw [i2 k sv hsv ((map_find_eq_none_iff d k).2 hkd), hsv]

/-- Witness for C1: `smart-merge({a: {x:1}}, {a: {y:2}}) == {a: {x:1, y:2}}`. -/
theorem smart_merge_variants_maps_witness :
    smart_merge_variants (map [(string "a", map [(string "x", int 1)])])
        (map [(string "a", map [(string "y", int 2)])])
      = .done (map [(string "a", map [(string "x", int 1), (string "y", int 2)])])
    ∧ ∃ m, map [(string "a", map [(string "x", int 1), (string "y", int 2)])] = map m
      ∧ (∀ k, k ∈ map_keys m ↔ k ∈ map_keys [(string "a", map [(string "x", int 1)])]
          ∨ k ∈ map_keys [(string "a", map [(string "y", int 2)])])
      ∧ (∀ k, k ∈ map_keys [(string "a", map [(string "x", int 1)])] →
          k ∉ map_keys [(string "a", map [(string "y", int 2)])] →
          map_find m k = map_find [(string "a", map [(string "x", int 1)])] k)
      ∧ (∀ k, k ∉ map_keys [(string "a", map [(string "x", int 1)])] →
          k ∈ map_keys [(string "a", map [(string "y", int 2)])] →
          map_find m k = map_find [(string "a", map [(string "y", int 2)])] k)
      ∧ (∀ k dv sv, map_find [(string "a", map [(string "x", int 1)])] k = some dv →
          map_find [(string "a", map [(string "y", int 2)])] k = some sv →
          ∃ x, smart_merge_variants dv sv = .done x ∧ map_find m k = some x)
      ∧ ((map_keys [(string "a", map [(string "x", int 1)])]).Nodup → (map_keys m).Nodup) :=
  ⟨by decide,
    smart_merge_variants_maps [(string "a", map [(string "x", int 1)])]
      [(string "a", map [(string "y", int 2)])]
      (map [(string "a", map [(string "x", int 1), (string "y", int 2)])])
      (by decide) (by decide)⟩

/-- C2: when `dst` and `src` are neither both maps nor both lists,
`smart_merge_variants` reports an error exactly when their types differ and
neither is null; whenever it reports none, `dst` becomes `src` (so a null `src`
makes `dst` null). -/
theorem smart_merge_variants_override (dst src : Variant)
    (hm : ¬(dst.is_map = true ∧ src.is_map = true))
    (hl : ¬(dst.is_list = true ∧ src.is_list = true)) :
    ((smart_merge_variants dst src).ok = false ↔
        (dst.type ≠ src.type ∧ dst.is_null = false ∧ src.is_null = false))
    ∧ ((smart_merge_variants dst src).ok = true → smart_merge_variants dst src = .done src)
    ∧ (src = null → smart_merge_variants dst src = .done null) := by
  rw [smart_merge_variants_other dst src hm hl]
  by_cases hc : (decide (src.type = dst.type) || src.is_null || dst.is_null) = true
  · rw [if_pos hc]
    refine ⟨?_, fun _ => rfl, fun hn => by rw [hn]⟩
    simp only [MergeResult.ok]
    constructor
    · intro h; cases h
    · rintro ⟨h1, h2, h3⟩
      simp [h2, h3] at hc
      exact absurd hc.symm h1
  · rw [if_neg hc]
    simp only [Bool.or_eq_true, decide_eq_true_eq, not_or, Bool.not_eq_true] at hc
    refine ⟨?_, ?_, ?_⟩
    · simp only [MergeResult.ok, true_iff]
      exact ⟨fun h => hc.1.1 h.symm, hc.2, hc.1.2⟩
    · intro h; simp [MergeResult.ok] at h
    · intro hn; subst hn; simp [is_null] at hc

/-- Witness for C2: merging a map into a string fails. -/
theorem smart_merge_variants_override_witness :
    (smart_merge_variants (string "s") (map [(string "a", int 1)])).ok = false :=
  (smart_merge_variants_override (string "s") (map [(string "a", int 1)])
    (by decide) (by decide)).1.2 ⟨by decide, rfl, rfl⟩

/-- Counterexample to C3: merging `{a: 1, b: {}}` into `{b: "s"}` reports an error at
key `b`, and by then key `a` has been added to `dst`. -/
theorem smart_merge_variants_not_atomic :
    smart_merge_variants (map [(string "b", string "s")])
        (map [(string "a", int 1), (string "b", map [])])
      = .failed (map [(string "a", int 1), (string "b", string "s")])
    ∧ map [(string "a", int 1), (string "b", string "s")] ≠ map [(string "b", string "s")] := by
  decide

/-- Where a failing run of the loop of `smart_merge_variants` stops. -/
theorem smart_merge_entries_failed (s : List (Variant × Variant)) :
    ∀ (d r : List (Variant × Variant)), smart_merge_entries d s = .failed r →
      ∃ pre k v post d1 slot slot2,
        s = pre ++ (k, v) :: post
        ∧ smart_merge_entries d pre = .done d1
        ∧ map_find d1 k = some slot
        ∧ smart_merge_variants slot v = .failed slot2
        ∧ r = map_replace d1 k slot2 := by
  induction s with
  | nil =>
    intro d r h
    simp [smart_merge_entries_nil] at h
  | cons p rest ih =>
    obtain ⟨k0, v0⟩ := p
    intro d r h
    rw [smart_merge_entries_cons] at h
    cases hf : map_find d k0 with
    | none =>
      simp only [hf] at h
      obtain ⟨pre, k, v, post, d1, slot, slot2, e1, e2, e3, e4, e5⟩ :=
        ih (map_assign d k0 v0) r h
      refine ⟨(k0, v0) :: pre, k, v, post, d1, slot, slot2, ?_, ?_, e3, e4, e5⟩
      · rw [e1]; rfl
      · rw [smart_merge_entries_cons]; simp only [hf]; exact e2
    | some slot0 =>
      simp only [hf] at h
      cases hm : smart_merge_variants slot0 v0 with
      | done w =>
        simp only [hm] at h
        obtain ⟨pre, k, v, post, d1, slot, slot2, e1, e2, e3, e4, e5⟩ :=
          ih (map_replace d k0 w) r h
        refine ⟨(k0, v0) :: pre, k, v, post, d1, slot, slot2, ?_, ?_, e3, e4, e5⟩
        · rw [e1]; rfl
        · rw [smart_merge_entries_cons]; simp only [hf, hm]; exact e2
      | failed w =>
        simp only [hm] at h
        injection h with h
        exact ⟨[], k0, v0, rest, d, slot0, w, rfl, smart_merge_entries_nil d, hf, hm, h.symm⟩

/-- Outside the map and list cases a failed call leaves `dst` as it was. -/
theorem smart_merge_variants_other_failed (dst src r : Variant)
    (hm : ¬(dst.is_map = true ∧ src.is_map = true))
    (hl : ¬(dst.is_list = true ∧ src.is_list = true))
    (h : smart_merge_variants dst src = .failed r) :
    r = dst ∧ dst.type ≠ src.type ∧ dst.is_null = false ∧ src.is_null = false := by
  rw [smart_merge_variants_other dst src hm hl] at h
  split at h
  · cases h
  · rename_i hc
    injection h with h
    simp only [Bool.or_eq_true, decide_eq_true_eq, not_or, Bool.not_eq_true] at hc
    exact ⟨h.symm, fun e => hc.1.1 e.symm, hc.2, hc.1.2⟩

/-- C3, amended: a reported error stops the merge where the mismatch is found, and
nothing is undone.  If `dst` and `src` are not both maps, `dst` is unchanged (their
types differ and neither is null).  If they are maps, the entries of `src` split
into those before the failing key, the failing entry and the rest: the earlier
entries have been merged into `dst` as by a successful merge of them alone, the
slot of the failing key holds what its own failed merge left there, and no later
entry has been processed. -/
theorem smart_merge_variants_failed (dst src r : Variant)
    (h : smart_merge_variants dst src = .failed r) :
    (¬(dst.is_map = true ∧ src.is_map = true) →
        r = dst ∧ dst.type ≠ src.type ∧ dst.is_null = false ∧ src.is_null = false)
    ∧ (∀ d s, dst = map d → src = map s →
        ∃ pre k v post d1 slot slot2,
          s = pre ++ (k, v) :: post
          ∧ smart_merge_variants (map d) (map pre) = .done (map d1)
          ∧ map_find d1 k = some slot
          ∧ smart_merge_variants slot v = .failed slot2
          ∧ r = map (map_replace d1 k slot2)) := by
  constructor
  · intro hm
    have hl : ¬(dst.is_list = true ∧ src.is_list = true) := by
      rintro ⟨h1, h2⟩
      cases dst <;> simp [is_list] at h1
      cases src <;> simp [is_list] at h2
      simp [smart_merge_variants_list_list] at h
    exact smart_merge_variants_other_failed dst src r hm hl h
  · intro d s hd hs
    subst hd; subst hs
    rw [smart_merge_variants_map_map] at h
    cases he : smart_merge_entries d s with
    | done d2 => simp [he] at h
    | failed d2 =>
      simp only [he] at h
      injection h with h
      obtain ⟨pre, k, v, post, d1, slot, slot2, e1, e2, e3, e4, e5⟩ :=
        smart_merge_entries_failed s d d2 he
      refine ⟨pre, k, v, post, d1, slot, slot2, e1, ?_, e3, e4, ?_⟩
      · rw [smart_merge_variants_map_map, e2]
      · rw [← h, e5]

/-- Witness for C3 (amended) on the merge of `{a: 1, b: {}}` into `{b: "s"}`. -/
theorem smart_merge_variants_failed_witness :
    ∃ pre k v post d1 slot slot2,
      [(string "a", int 1), (string "b", map [])] = pre ++ (k, v) :: post
      ∧ smart_merge_variants (map [(string "b", string "s")]) (map pre) = .done (map d1)
      ∧ map_find d1 k = some slot
      ∧ smart_merge_variants slot v = .failed slot2
      ∧ map [(string "a", int 1), (string "b", string "s")]
        = map (map_replace d1 k slot2) :=
  (smart_merge_variants_failed (map [(string "b", string "s")])
    (map [(string "a", int 1), (string "b", map [])])
    (map [(string "a", int 1), (string "b", string "s")]) (by decide)).2
    [(string "b", string "s")] [(string "a", int 1), (string "b", map [])] rfl rfl

/-- C4: on two lists `smart_merge_variants` never fails and sets `dst` to
`dst ++ src` whatever the elements are, also where `append_variants` returns
`src` alone; `smart-merge([1,2], [3]) == [1,2,3]`. -/
theorem smart_merge_variants_lists (d s : List Variant) :
    smart_merge_variants (list d) (list s) = .done (list (d ++ s))
    ∧ smart_merge_variants (list [int 1, int 2]) (list [int 3])
        = .done (list [int 1, int 2, int 3])
    ∧ append_variants (list [int 1, int 2]) (list [int 3]) = some (list [int 3]) :=
  ⟨smart_merge_variants_list_list d s, by decide, by decide⟩

/-! ## Facts about `append_variants` -/

theorem first_is_scalar_eq (xs : List Variant) :
    first_is_scalar xs = some (head_scalar_like xs) := by
  cases xs with
  | nil => simp [first_is_scalar, head_scalar_like]
  | cons x t =>
    cases x <;> simp [first_is_scalar, head_scalar_like, Variant.scalar_like, is_numeric, is_string]

theorem head_scalar_like_of_numeric (xs : List Variant) (h : ∀ x ∈ xs, x.is_numeric = true)
    (hne : xs ≠ []) : head_scalar_like xs = true := by
  cases xs with
  | nil => exact absurd rfl hne
  | cons x t =>
    have hx := h x (List.mem_cons_self x t)
    cases x <;> simp_all [head_scalar_like, Variant.scalar_like, is_numeric]

theorem append_variants_list_list (a b : List Variant) :
    append_variants (list a) (list b) =
      some (if head_scalar_like a || head_scalar_like b then list b else list (a ++ b)) := by
  simp only [append_variants, is_null, first_is_scalar_eq]
  cases ha : head_scalar_like a <;> cases hb : head_scalar_like b <;> simp

/-- C5: for lists `a` and `b`, `append_variants(a, b)` is `b` when `a` or `b` is
non-empty with an integer, decimal or string as first element, and `a ++ b`
otherwise; two lists of numbers (empty ones included) give the second list,
`append([obj1], [obj2])` is `[obj1, obj2]` for maps, and the first element of a
list is only accessed when the list is non-empty (no access falls outside). -/
theorem append_variants_of_lists (a b : List Variant) :
    append_variants (list a) (list b) =
        some (if head_scalar_like a || head_scalar_like b then list b else list (a ++ b))
    ∧ ((∀ x ∈ a, x.is_numeric = true) → (∀ x ∈ b, x.is_numeric = true) →
        append_variants (list a) (list b) = some (list b))
    ∧ (∀ m1 m2 : List (Variant × Variant),
        append_variants (list [map m1]) (list [map m2]) = some (list [map m1, map m2]))
    ∧ first_is_scalar a ≠ none ∧ first_is_scalar b ≠ none := by
  refine ⟨append_variants_list_list a b, ?_, ?_, ?_, ?_⟩
  · intro hna hnb
    rw [append_variants_list_list]
    by_cases hb : b = []
    · by_cases ha : a = []
      · subst ha; subst hb; simp [head_scalar_like]
      · simp [head_scalar_like_of_numeric a hna ha]
    · simp [head_scalar_like_of_numeric b hnb hb]
  · intro m1 m2
    rw [append_variants_list_list]
    simp [head_scalar_like, Variant.scalar_like]
  · simp [first_is_scalar_eq]
  · simp [first_is_scalar_eq]

/-- Witness for C5 on `[1, 2.5]` and `[3]`. -/
theorem append_variants_of_lists_witness :
    append_variants (list [int 1, decimal 2500000]) (list [int 3]) = some (list [int 3]) :=
  (append_variants_of_lists [int 1, decimal 2500000] [int 3]).2.1 (by decide) (by decide)

/-- C6: null is a two-sided identity of `append_variants`. -/
theorem append_variants_null (x : Variant) :
    append_variants null x = some x ∧ append_variants x null = some x := by
  constructor
  · simp [append_variants, is_null]
  · cases x <;> simp [append_variants, is_null]

/-- C7: for non-null `a` and `b` of which exactly one is a list, `append_variants`
wraps the other operand in a one-element list and concatenates in operand order,
also when the list holds numbers or strings. -/
theorem append_variants_one_list (a b : Variant)
    (ha : a.is_null = false) (hb : b.is_null = false) :
    (∀ xs, a = list xs → b.is_list = false →
        append_variants a b = some (list (xs ++ [b])))
    ∧ (∀ ys, b = list ys → a.is_list = false →
        append_variants a b = some (list ([a] ++ ys))) := by
  constructor
  · intro xs hxs hbl
    subst hxs
    cases b <;> simp_all [append_variants, is_null, is_list]
  · intro ys hys hal
    subst hys
    cases a <;> simp_all [append_variants, is_null, is_list]

/-- Witness for C7: `append([1,2], 3) == [1,2,3]`, while `append([1,2], [3]) == [3]`. -/
theorem append_variants_one_list_witness :
    append_variants (list [int 1, int 2]) (int 3) = some (list [int 1, int 2, int 3])
    ∧ append_variants (list [int 1, int 2]) (list [int 3]) = some (list [int 3]) :=
  ⟨(append_variants_one_list (list [int 1, int 2]) (int 3) rfl rfl).1 [int 1, int 2] rfl rfl,
    by decide⟩

/-- C8: for non-null `a` and `b` neither of which is a list, `append_variants(a, b)`
is the two-element list `[a, b]` when both are maps and `b` in every other case. -/
theorem append_variants_no_list (a b : Variant)
    (ha : a.is_null = false) (hb : b.is_null = false)
    (hal : a.is_list = false) (hbl : b.is_list = false) :
    append_variants a b = some (if a.is_map && b.is_map then list [a, b] else b) := by
  cases a <;> cases b <;> simp_all [append_variants, is_null, is_list, is_map]

/-- Witness for C8: two maps are collected, not merged; a string after a map wins. -/
theorem append_variants_no_list_witness :
    append_variants (map [(string "x", int 1)]) (map [(string "y", int 2)])
        = some (list [map [(string "x", int 1)], map [(string "y", int 2)]])
    ∧ append_variants (map [(string "x", int 1)]) (string "s") = some (string "s") :=
  ⟨append_variants_no_list (map [(string "x", int 1)]) (map [(string "y", int 2)])
      rfl rfl rfl rfl,
    append_variants_no_list (map [(string "x", int 1)]) (string "s") rfl rfl rfl rfl⟩

/-! ## Facts about `merge_variant_over` -/

/-- The function `append_variants` always returns a value. -/
theorem append_variants_total (a b : Variant) : ∃ r, append_variants a b = some r := by
  cases a <;> cases b <;>
    first
    | exact ⟨_, append_variants_list_list _ _⟩
    | simp [append_variants, is_null]

/-- What the loop of `merge_variant_over` leaves in `a`, for distinct keys. -/
theorem merge_keys_spec (b : List (Variant × Variant)) (keys : List Variant) :
    ∀ (a : List (Variant × Variant)), keys.Nodup →
      ∃ r, merge_keys b keys a = some r
        ∧ (∀ k, k ∈ keys → map_find r k = append_variants (map_get a k) (map_get b k))
        ∧ (∀ k, k ∉ keys → map_find r k = map_find a k) := by
  induction keys with
  | nil =>
    intro a _
    exact ⟨a, rfl, fun k hk => by simp at hk, fun _ _ => rfl⟩
  | cons key rest ih =>
    intro a hnd
    obtain ⟨hkey, hrest⟩ := List.nodup_cons.1 hnd
    obtain ⟨v, hv⟩ := append_variants_total (map_get a key) (map_get b key)
    obtain ⟨r, hr, i1, i2⟩ := ih (map_assign a key v) hrest
    refine ⟨r, ?_, ?_, ?_⟩
    · simp only [merge_keys, hv]; exact hr
    · intro k hk
      by_cases hkk : k = key
      · subst hkk
        rw [i2 k hkey, map_find_assign, hv]; simp
      · have hkr : k ∈ rest := by
          rcases List.mem_cons.1 hk with h | h
          · exact absurd h hkk
          · exact h
        rw [i1 k hkr]
        simp [map_get, map_find_assign, hkk]
    · intro k hk
      have hk2 : k ≠ key ∧ k ∉ rest := by simpa [not_or] using hk
      rw [i2 k hk2.2, map_find_assign]; simp [hk2.1]

/-- C9: on two maps `merge_variant_over(dst, src)` leaves a map whose keys are those
of `dst` and `src` together; every key of `src` holds
`append_variants(old dst[k], src[k])` (old `dst[k]` being null when absent, so a
key only in `src` gets `src[k]`), every other key keeps its value, and two map
values under one key become the list of the two: they are not merged.  The keys
of `src` are distinct, as in every map. -/
theorem merge_variant_over_maps (d s : List (Variant × Variant))
    (hs : (map_keys s).Nodup) :
    ∃ m, merge_variant_over (map d) (map s) = some (map m)
      ∧ (∀ k, k ∈ map_keys m ↔ k ∈ map_keys d ∨ k ∈ map_keys s)
      ∧ (∀ k, k ∈ map_keys s →
          map_find m k = append_variants (map_get d k) (map_get s k))
      ∧ (∀ k, k ∈ map_keys s → k ∉ map_keys d → map_find m k = some (map_get s k))
      ∧ (∀ k, k ∉ map_keys s → map_find m k = map_find d k)
      ∧ (∀ k x y, map_find d k = some (map x) → map_find s k = some (map y) →
          map_find m k = some (list [map x, map y])) := by
  obtain ⟨m, hm, i1, i2⟩ := merge_keys_spec s (map_keys s) d hs
  refine ⟨m, ?_, ?_, i1, ?_, i2, ?_⟩
  · simp [merge_variant_over, hm]
  · intro k
    by_cases hks : k ∈ map_keys s
    · obtain ⟨v, hv⟩ := append_variants_total (map_get d k) (map_get s k)
      have hmk : map_find m k = some v := by rw [i1 k hks, hv]
      simp [hks, ← map_find_isSome_iff m k, hmk]
    · rw [← map_find_isSome_iff m k, i2 k hks, map_find_isSome_iff]
      simp [hks]
  · intro k hks hkd
    rw [i1 k hks]
    have hd : map_get d k = null := by
      simp [map_get, (map_find_eq_none_iff d k).2 hkd]
    rw [hd]
    simp [append_variants, is_null]
  · intro k x y hd hsv
    have hks : k ∈ map_keys s := (map_find_isSome_iff s k).1 ⟨_, hsv⟩
    rw [i1 k hks]
    simp [map_get, hd, hsv, append_variants, is_null]

/-- Witness for C9: merging `{k: {y: 2}}` over `{k: {x: 1}}` gives
`{k: [{x: 1}, {y: 2}]}`. -/
theorem merge_variant_over_maps_witness :
    merge_variant_over (map [(string "k", map [(string "x", int 1)])])
        (map [(string "k", map [(string "y", int 2)])])
      = some (map [(string "k", list [map [(string "x", int 1)], map [(string "y", int 2)]])])
    ∧ ∃ m, merge_variant_over (map [(string "k", map [(string "x", int 1)])])
          (map [(string "k", map [(string "y", int 2)])]) = some (map m)
        ∧ map_find m (string "k")
          = some (list [map [(string "x", int 1)], map [(string "y", int 2)]]) :=
  ⟨by decide,
    match merge_variant_over_maps [(string "k", map [(string "x", int 1)])]
        [(string "k", map [(string "y", int 2)])] (by decide) with
    | ⟨m, h1, _, _, _, _, h6⟩ =>
      ⟨m, h1, h6 (string "k") [(string "x", int 1)] [(string "y", int 2)]
        (by decide) (by decide)⟩⟩

/-! ## Facts about `variant_builder` -/

theorem contributions_append (name : String) (cs : List BuilderCall) (c : BuilderCall) :
    contributions name (cs ++ [c]) =
      match c with
      | .add_value n v => if n = name then contributions name cs ++ [v] else contributions name cs
      | .set_value n v => if n = name then [v] else contributions name cs := by
  cases c with
  | add_value n v =>
    by_cases h : n = name <;> simp [contributions, since_last_set, h]
  | set_value n v =>
    by_cases h : n = name <;> simp [contributions, since_last_set, h]

/-- A name has contributions exactly when some call used it. -/
theorem contributions_ne_nil_iff (name : String) (cs : List BuilderCall) :
    contributions name cs ≠ [] ↔ ∃ c ∈ cs, c.name = name := by
  induction cs using List.reverseRecOn with
  | nil => simp [contributions, since_last_set]
  | append_singleton cs c ih =>
    have hex : (∃ c2 ∈ cs ++ [c], c2.name = name)
        ↔ (∃ c2 ∈ cs, c2.name = name) ∨ c.name = name := by
      constructor
      · rintro ⟨c2, hm, hn⟩
        rcases List.mem_append.1 hm with h | h
        · exact Or.inl ⟨c2, h, hn⟩
        · rw [List.mem_singleton.1 h] at hn
          exact Or.inr hn
      · rintro (⟨c2, hm, hn⟩ | h)
        · exact ⟨c2, List.mem_append_left _ hm, hn⟩
        · exact ⟨c, by simp, h⟩
    rw [hex, ← ih, contributions_append]
    cases c with
    | add_value n v =>
      by_cases h : n = name <;> simp [h, BuilderCall.name]
    | set_value n v =>
      by_cases h : n = name <;> simp [h, BuilderCall.name]

/-- The accumulator `attr_` after a sequence of calls on an empty builder: its keys
are distinct string values, and each name with contributions holds exactly
them. -/
theorem builder_attr_spec (cs : List BuilderCall) :
    (map_keys (variant_builder.empty.calls cs).attr_).Nodup
    ∧ (∀ key, (∀ n, key ≠ string n) →
        map_find (variant_builder.empty.calls cs).attr_ key = none)
    ∧ (∀ n, map_find (variant_builder.empty.calls cs).attr_ (string n) =
        if contributions n cs = [] then none else some (contributions n cs)) := by
  induction cs using List.reverseRecOn with
  | nil =>
    simp [variant_builder.calls, variant_builder.empty, map_keys, map_find, contributions,
      since_last_set]
  | append_singleton cs c ih =>
    obtain ⟨hnd, hother, hname⟩ := ih
    have hcalls : variant_builder.empty.calls (cs ++ [c])
        = (variant_builder.empty.calls cs).call c := by
      simp [variant_builder.calls, List.foldl_append]
    rw [hcalls]
    generalize variant_builder.empty.calls cs = b at hnd hother hname
    cases c with
    | add_value n0 v =>
      simp only [variant_builder.call, variant_builder.add_value]
      refine ⟨map_keys_assign_nodup _ _ _ hnd, ?_, ?_⟩
      · intro key hkey
        rw [map_find_assign, if_neg (hkey n0)]
        exact hother key hkey
      · intro n
        rw [map_find_assign, contributions_append]
        by_cases h : n0 = n
        · subst h
          rw [hname n0]
          by_cases hc : contributions n0 cs = [] <;> simp [hc]
        · have h2 : string n ≠ string n0 := by
            intro e; injection e with e; exact h e.symm
          simp only [h2, if_false, h]
          exact hname n
    | set_value n0 v =>
      simp only [variant_builder.call, variant_builder.set_value]
      have hnd2 := map_keys_erase_nodup b.attr_ (string n0) hnd
      refine ⟨map_keys_assign_nodup _ _ _ hnd2, ?_, ?_⟩
      · intro key hkey
        rw [map_find_assign, if_neg (hkey n0), map_find_erase_other _ _ _ (hkey n0)]
        exact hother key hkey
      · intro n
        rw [map_find_assign, contributions_append]
        by_cases h : n0 = n
        · subst h
          simp [map_find_erase_same b.attr_ (string n0) hnd]
        · have h2 : string n ≠ string n0 := by
            intro e; injection e with e; exact h e.symm
          simp only [h2, if_false, h]
          rw [map_find_erase_other _ _ _ h2]
          exact hname n

/-- What the loop of `build` leaves in `res`, for an accumulator with distinct
keys. -/
theorem build_entries_spec (attr : List (Variant × List Variant)) :
    ∀ (res : List (Variant × Variant)), (map_keys attr).Nodup →
      ∀ k, map_find (variant_builder.build_entries attr res) k =
        match map_find attr k with
        | some vec => some (variant_builder.build_value vec)
        | none => map_find res k := by
  induction attr with
  | nil => intro res _ k; simp [variant_builder.build_entries, map_find]
  | cons p rest ih =>
    obtain ⟨k0, vec⟩ := p
    intro res hnd k
    have hnd2 : k0 ∉ map_keys rest ∧ (map_keys rest).Nodup := by
      simpa [map_keys] using hnd
    simp only [variant_builder.build_entries]
    rw [ih _ hnd2.2 k]
    by_cases hk : k = k0
    · subst hk
      rw [(map_find_eq_none_iff rest k).2 hnd2.1, map_find_cons_self, map_find_assign]
      simp
    · rw [map_find_cons_ne _ _ _ _ hk, map_find_assign]
      simp [hk]

/-- C10: after any sequence of `add_value` and `set_value` calls on an empty builder,
`build()` returns a map whose keys are exactly the names used; for each such name
the contributions `c` (the values given from its most recent `set_value` on, or
all added values when it was never set, in call order) are never empty, and the
map holds the only element of `c` when `c` has one element and the list `c` when
it has two or more. -/
theorem variant_builder_build (cs : List BuilderCall) :
    ∃ m, (variant_builder.empty.calls cs).build = map m
      ∧ (∀ key, key ∈ map_keys m ↔ ∃ c ∈ cs, key = string c.name)
      ∧ (∀ c ∈ cs, contributions c.name cs ≠ [])
      ∧ (∀ n x, contributions n cs = [x] → map_find m (string n) = some x)
      ∧ (∀ n, 2 ≤ (contributions n cs).length →
          map_find m (string n) = some (list (contributions n cs)))
      ∧ (variant_builder.empty.calls [.add_value "k" (int 1), .add_value "k" (int 2)]).build
          = map [(string "k", list [int 1, int 2])]
      ∧ (variant_builder.empty.calls [.set_value "k" (int 1), .add_value "k" (int 2)]).build
          = map [(string "k", list [int 1, int 2])]
      ∧ (variant_builder.empty.calls [.add_value "k" (int 5)]).build
          = map [(string "k", int 5)] := by
  obtain ⟨hnd, hother, hname⟩ := builder_attr_spec cs
  have hfind := build_entries_spec (variant_builder.empty.calls cs).attr_ [] hnd
  refine ⟨_, rfl, ?_, ?_, ?_, ?_, by decide, by decide, by decide⟩
  · intro key
    rw [← map_find_isSome_iff, hfind key]
    constructor
    · rintro ⟨v, hv⟩
      by_cases hstr : ∃ n, key = string n
      · obtain ⟨n, rfl⟩ := hstr
        rw [hname n] at hv
        by_cases hc : contributions n cs = []
        · simp [hc, map_find] at hv
        · obtain ⟨c, hc1, hc2⟩ := (contributions_ne_nil_iff n cs).1 hc
          exact ⟨c, hc1, by rw [hc2]⟩
      · rw [hother key (fun n e => hstr ⟨n, e⟩)] at hv
        simp [map_find] at hv
    · rintro ⟨c, hc, rfl⟩
      have hne : contributions c.name cs ≠ [] :=
        (contributions_ne_nil_iff c.name cs).2 ⟨c, hc, rfl⟩
      rw [hname c.name]
      simp [hne]
  · intro c hc
    exact (contributions_ne_nil_iff c.name cs).2 ⟨c, hc, rfl⟩
  · intro n x hx
    rw [hfind (string n), hname n]
    simp [hx, variant_builder.build_value]
  · intro n hlen
    rw [hfind (string n), hname n]
    have hne : contributions n cs ≠ [] := by
      intro e; rw [e] at hlen; simp at hlen
    simp only [hne, if_false]
    cases hcs : contributions n cs with
    | nil => exact absurd hcs hne
    | cons x t =>
      cases t with
      | nil => rw [hcs] at hlen; simp at hlen
      | cons y t2 => simp [variant_builder.build_value]

/-! ## Facts about `merge_object` -/

theorem is_string_iff {k : Variant} : k.is_string = true ↔ ∃ n, k = string n := by
  cases k <;> simp [is_string]

/-- The accumulator after `set_value(name, val)`: distinct keys stay distinct, `name`
holds the single contribution `val`, every other key is unchanged. -/
theorem set_value_attr (b : variant_builder) (name : String) (val : Variant)
    (hb : (map_keys b.attr_).Nodup) :
    (map_keys (b.set_value name val).attr_).Nodup
    ∧ ∀ k, map_find (b.set_value name val).attr_ k =
        if k = string name then some [val] else map_find b.attr_ k := by
  simp only [variant_builder.set_value]
  refine ⟨map_keys_assign_nodup _ _ _ (map_keys_erase_nodup _ _ hb), ?_⟩
  intro k
  rw [map_find_assign, map_find_erase_same _ _ hb]
  by_cases hk : k = string name
  · simp [hk]
  · simp [hk, map_find_erase_other _ _ _ hk]

/-- What the loop of `merge_object` leaves in the accumulator when every key is a
string. -/
theorem merge_object_keys_spec (obj : List (Variant × Variant)) (keys : List Variant) :
    ∀ (b : variant_builder), (map_keys b.attr_).Nodup →
      (∀ k ∈ keys, ∃ n, k = string n) →
      ∃ b2, merge_object_keys obj keys b = some b2
        ∧ (map_keys b2.attr_).Nodup
        ∧ (∀ k, map_find b2.attr_ k =
            if k ∈ keys then some [map_get obj k] else map_find b.attr_ k)
        ∧ (∀ names : List String, keys = names.map string →
            b2 = names.foldl (fun acc n => acc.set_value n (map_get obj (string n))) b) := by
  induction keys with
  | nil =>
    intro b hb _
    refine ⟨b, rfl, hb, fun k => by simp, ?_⟩
    intro names hn
    cases names with
    | nil => rfl
    | cons n t => simp at hn
  | cons key rest ih =>
    intro b hb hstr
    obtain ⟨n, hn⟩ := hstr key (List.mem_cons_self key rest)
    subst hn
    obtain ⟨hnd, hfind⟩ := set_value_attr b n (map_get obj (string n)) hb
    obtain ⟨b2, h1, h2, h3, h4⟩ := ih (b.set_value n (map_get obj (string n))) hnd
      (fun k hk => hstr k (List.mem_cons_of_mem _ hk))
    refine ⟨b2, ?_, h2, ?_, ?_⟩
    · simp only [merge_object_keys, Variant.as_string]; exact h1
    · intro k
      rw [h3 k, hfind k]
      by_cases hkr : k ∈ rest
      · simp [hkr]
      · by_cases hk : k = string n
        · simp [hk]
        · simp [hkr, hk]
    · intro names hnames
      cases names with
      | nil => simp at hnames
      | cons n2 t =>
        simp only [List.map_cons, List.cons.injEq] at hnames
        obtain ⟨e1, e2⟩ := hnames
        injection e1 with e1
        subst e1
        simp only [List.foldl_cons]
        exact h4 t e2

/-- C11: for a builder whose accumulator has distinct keys and a map `obj` whose keys
are strings, `merge_object(obj)` succeeds and is the same as calling
`set_value(k, obj[k])` for every key `k` of `obj` in order; afterwards `build()`
maps each key of `obj` to exactly `obj[k]`, whatever had been contributed under
it before, and every other name builds to the same value as before the call. -/
theorem merge_object_overwrites (b : variant_builder) (obj : List (Variant × Variant))
    (hb : (map_keys b.attr_).Nodup)
    (hstr : ∀ k ∈ map_keys obj, k.is_string = true) :
    ∃ b2, b.merge_object (map obj) = some b2
      ∧ (∀ names : List String, map_keys obj = names.map string →
          b2 = names.foldl (fun acc n => acc.set_value n (map_get obj (string n))) b)
      ∧ ∃ m m2, b.build = map m ∧ b2.build = map m2
        ∧ (∀ k ∈ map_keys obj, map_find m2 k = some (map_get obj k))
        ∧ (∀ k, k ∉ map_keys obj → map_find m2 k = map_find m k) := by
  obtain ⟨b2, h1, h2, h3, h4⟩ := merge_object_keys_spec obj (map_keys obj) b hb
    (fun k hk => is_string_iff.1 (hstr k hk))
  refine ⟨b2, h1, h4, _, _, rfl, rfl, ?_, ?_⟩
  · intro k hk
    rw [build_entries_spec b2.attr_ [] h2 k, h3 k]
    simp [hk, variant_builder.build_value]
  · intro k hk
    rw [build_entries_spec b2.attr_ [] h2 k, build_entries_spec b.attr_ [] hb k, h3 k]
    simp [hk]

/-- Witness for C11: after `add("k",1); add("k",2)`, merging `{k: 7, n: [8]}` builds
`{k: 7, n: [8]}`. -/
theorem merge_object_overwrites_witness :
    ∃ b2, (variant_builder.empty.calls [.add_value "k" (int 1), .add_value "k" (int 2)]).merge_object
          (map [(string "k", int 7), (string "n", list [int 8])]) = some b2
      ∧ b2.build = map [(string "k", int 7), (string "n", list [int 8])] :=
  match merge_object_overwrites
      (variant_builder.empty.calls [.add_value "k" (int 1), .add_value "k" (int 2)])
      [(string "k", int 7), (string "n", list [int 8])] (by decide) (by decide) with
  | ⟨b2, h1, _, _⟩ =>
    ⟨b2, h1, by
      have h : b2 = ⟨[(string "k", [int 7]), (string "n", [list [int 8]])]⟩ :=
        Option.some.inj (h1.symm.trans (by decide))
      rw [h]; decide⟩

/-! ## Facts about `deep_copy_variant` -/

theorem keys_ascending_iff (ks : List Variant) :
    keys_ascending ks = true ↔ ks.Pairwise (fun a b => cmp a b = .lt) := by
  induction ks with
  | nil => simp [keys_ascending]
  | cons k t ih => simp [keys_ascending, List.pairwise_cons, ih]

theorem cmp_lt_ne (a b : Variant) (h : cmp a b = .lt) : a ≠ b := by
  intro e
  rw [e, cmp_refl] at h
  cases h

theorem keys_ascending_nodup (ks : List Variant) (h : keys_ascending ks = true) :
    ks.Nodup :=
  ((keys_ascending_iff ks).1 h).imp (fun hab => cmp_lt_ne _ _ hab)

/-- A key above every key of a map is entered behind its last entry. -/
theorem map_assign_above {β : Type} (m : List (Variant × β)) (key : Variant) (v : β)
    (h : ∀ k ∈ map_keys m, cmp k key = .lt) : map_assign m key v = m ++ [(key, v)] := by
  have hnone : map_find m key = none :=
    (map_find_eq_none_iff m key).2 (fun hk => cmp_lt_ne _ _ (h key hk) rfl)
  simp only [map_assign, hnone]
  clear hnone
  induction m with
  | nil => simp [map_insert]
  | cons p rest ih =>
    obtain ⟨k0, x⟩ := p
    have h0 : cmp k0 key = .lt := h k0 (by simp [map_keys])
    have h1 : cmp key k0 ≠ .lt := by
      rw [cmp_swap k0 key, h0]; simp [Ordering.swap]
    have ih2 := ih (fun k hk => h k (by
      simp only [map_keys, List.map_cons, List.mem_cons] at hk ⊢
      exact Or.inr hk))
    simp [map_insert, h1, ih2]

/-- The loop of `deep_copy_variant` over ascending keys enters them one behind the
other. -/
theorem deep_copy_keys_ascending (entries : List (Variant × Variant)) (keys : List Variant) :
    ∀ (m : List (Variant × Variant)),
      (map_keys m ++ keys).Pairwise (fun a b => cmp a b = .lt) →
      deep_copy_keys entries keys m
        = m ++ keys.map (fun k => (k, deep_copy_variant (map_get entries k))) := by
  induction keys with
  | nil => intro m _; simp [deep_copy_keys]
  | cons key rest ih =>
    intro m hp
    rw [deep_copy_keys]
    have habove : ∀ k ∈ map_keys m, cmp k key = .lt := by
      intro k hk
      exact (List.pairwise_append.1 hp).2.2 k hk key (List.mem_cons_self key rest)
    rw [map_assign_above m key _ habove, ih]
    · simp
    · have : map_keys (m ++ [(key, deep_copy_variant (map_get entries key))]) ++ rest
          = map_keys m ++ key :: rest := by simp [map_keys]
      rw [this]; exact hp

theorem map_get_cons_self (k v : Variant) (rest : List (Variant × Variant)) :
    map_get ((k, v) :: rest) k = v := by
  simp [map_get, map_find]

theorem map_get_cons_ne (k v : Variant) (rest : List (Variant × Variant)) (key : Variant)
    (h : key ≠ k) : map_get ((k, v) :: rest) key = map_get rest key := by
  simp [map_get, map_find, h]

/-- Reading a map with distinct keys key by key gives back its entries. -/
theorem map_keys_map_get (entries : List (Variant × Variant))
    (h : (map_keys entries).Nodup) :
    (map_keys entries).map (fun k => (k, map_get entries k)) = entries := by
  induction entries with
  | nil => simp [map_keys]
  | cons p rest ih =>
    obtain ⟨k, v⟩ := p
    have h2 : k ∉ map_keys rest ∧ (map_keys rest).Nodup := by simpa [map_keys] using h
    simp only [map_keys, List.map_cons, map_get_cons_self, List.cons.injEq, true_and]
    have hrest : List.map (fun k2 => (k2, map_get ((k, v) :: rest) k2)) (List.map Prod.fst rest)
        = List.map (fun k2 => (k2, map_get rest k2)) (List.map Prod.fst rest) := by
      apply List.map_congr_left
      intro k2 hk2
      have hne : k2 ≠ k := by
        intro e
        apply h2.1
        rw [← e]
        exact hk2
      rw [map_get_cons_ne k v rest k2 hne]
    rw [hrest]
    exact ih h2.2

theorem map_get_mem (entries : List (Variant × Variant)) (key : Variant)
    (h : key ∈ map_keys entries) : ∃ p ∈ entries, map_get entries key = p.2 := by
  induction entries with
  | nil => simp [map_keys] at h
  | cons p rest ih =>
    obtain ⟨k, v⟩ := p
    by_cases hk : key = k
    · subst hk
      exact ⟨(key, v), List.mem_cons_self _ _, map_get_cons_self key v rest⟩
    · have hr : key ∈ map_keys rest := by
        simp only [map_keys, List.map_cons, List.mem_cons] at h
        rcases h with h | h
        · exact absurd h hk
        · exact h
      obtain ⟨p, hp, he⟩ := ih hr
      exact ⟨p, List.mem_cons_of_mem _ hp, by rw [map_get_cons_ne k v rest key hk, he]⟩

theorem deep_copy_variant_map (entries : List (Variant × Variant)) :
    deep_copy_variant (map entries) = map (deep_copy_keys entries (map_keys entries) []) := by
  rw [deep_copy_variant]

theorem deep_copy_variant_list (items : List Variant) :
    deep_copy_variant (list items) = list (deep_copy_items items) := by
  rw [deep_copy_variant]

theorem deep_copy_variant_other (v : Variant) (hm : v.is_map = false)
    (hl : v.is_list = false) : deep_copy_variant v = v := by
  cases v with
  | map _ => simp [is_map] at hm
  | list _ => simp [is_list] at hl
  | _ => rw [deep_copy_variant] <;> (intro _ h; cases h)

theorem deep_copy_items_eq_map (items : List Variant) :
    deep_copy_items items = items.map deep_copy_variant := by
  induction items with
  | nil => rw [deep_copy_items]; rfl
  | cons x xs ih => rw [deep_copy_items, ih]; rfl

mutual
theorem deep_copy_variant_wf : ∀ (v : Variant), v.wf = true → deep_copy_variant v = v
  | null, _ => deep_copy_variant_other _ rfl rfl
  | Variant.bool _, _ => deep_copy_variant_other _ rfl rfl
  | int _, _ => deep_copy_variant_other _ rfl rfl
  | decimal _, _ => deep_copy_variant_other _ rfl rfl
  | string _, _ => deep_copy_variant_other _ rfl rfl
  | object _, _ => deep_copy_variant_other _ rfl rfl
  | list items, h => by
    simp only [Variant.wf] at h
    rw [deep_copy_variant_list, deep_copy_items_wf items h]
  | map entries, h => by
    simp only [Variant.wf, Bool.and_eq_true] at h
    have hp := (keys_ascending_iff _).1 h.1
    have hnd := keys_ascending_nodup _ h.1
    rw [deep_copy_variant_map, deep_copy_keys_ascending entries (map_keys entries) []
      (by simpa [map_keys] using hp)]
    have hval : ∀ k ∈ map_keys entries,
        (k, deep_copy_variant (map_get entries k)) = (k, map_get entries k) := by
      intro k hk
      obtain ⟨p, hpm, he⟩ := map_get_mem entries k hk
      rw [he, deep_copy_entries_wf entries h.2 p hpm]
    rw [List.nil_append, List.map_congr_left hval, map_keys_map_get entries hnd]
theorem deep_copy_items_wf : ∀ (items : List Variant), wf_items items = true →
    deep_copy_items items = items
  | [], _ => by rw [deep_copy_items]
  | x :: xs, h => by
    simp only [wf_items, Bool.and_eq_true] at h
    rw [deep_copy_items, deep_copy_variant_wf x h.1, deep_copy_items_wf xs h.2]
theorem deep_copy_entries_wf : ∀ (entries : List (Variant × Variant)),
    wf_entries entries = true → ∀ p ∈ entries, deep_copy_variant p.2 = p.2
  | [], _, p, hp => by simp at hp
  | (k, v) :: rest, h, p, hp => by
    simp only [wf_entries, Bool.and_eq_true] at h
    rcases List.mem_cons.1 hp with e | e
    · rw [e]; exact deep_copy_variant_wf v h.1.2
    · exact deep_copy_entries_wf rest h.2 p e
end

/-- C12: `deep_copy_variant` is total, and on every value whose maps hold their
entries in ascending key order it returns a value structurally equal to its
argument: a list is rebuilt from the deep copies of its elements in the same
order, a map from its keys with the deep copies of its values, and a value that
is neither is returned as it is. -/
theorem deep_copy_variant_equal (v : Variant) (h : v.wf = true) :
    deep_copy_variant v = v
    ∧ (∀ items, deep_copy_variant (list items) = list (items.map deep_copy_variant))
    ∧ (∀ entries, keys_ascending (map_keys entries) = true →
        deep_copy_variant (map entries)
          = map ((map_keys entries).map (fun k => (k, deep_copy_variant (map_get entries k)))))
    ∧ (∀ x, x.is_map = false → x.is_list = false → deep_copy_variant x = x) := by
  refine ⟨deep_copy_variant_wf v h, ?_, ?_, deep_copy_variant_other⟩
  · intro items
    rw [deep_copy_variant_list, deep_copy_items_eq_map]
  · intro entries ha
    rw [deep_copy_variant_map, deep_copy_keys_ascending entries (map_keys entries) []
      (by simpa [map_keys] using (keys_ascending_iff _).1 ha)]
    simp

/-- Witness for C12 on `{a: [1, {x: "s"}], b: 3}`. -/
theorem deep_copy_variant_equal_witness :
    deep_copy_variant
        (map [(string "a", list [int 1, map [(string "x", string "s")]]), (string "b", int 3)])
      = map [(string "a", list [int 1, map [(string "x", string "s")]]), (string "b", int 3)] :=
  (deep_copy_variant_equal
    (map [(string "a", list [int 1, map [(string "x", string "s")]]), (string "b", int 3)])
    (by decide)).1

/-! ## Facts about `visit_variants` -/

mutual
theorem visit_variants_fold {σ : Type} (fn : Variant → σ → σ) :
    ∀ (v : Variant) (s : σ),
      visit_variants fn v s = (preorder v).foldl (fun acc x => fn x acc) s
  | null, s => by simp [visit_variants, preorder]
  | Variant.bool _, s => by simp [visit_variants, preorder]
  | int _, s => by simp [visit_variants, preorder]
  | decimal _, s => by simp [visit_variants, preorder]
  | string _, s => by simp [visit_variants, preorder]
  | object _, s => by simp [visit_variants, preorder]
  | list items, s => by
    simp only [visit_variants, preorder, List.foldl_cons]
    exact visit_items_fold fn items _
  | map entries, s => by
    simp only [visit_variants, preorder, List.foldl_cons]
    exact visit_entries_fold fn entries _
theorem visit_items_fold {σ : Type} (fn : Variant → σ → σ) :
    ∀ (items : List Variant) (s : σ),
      visit_items fn items s = (preorder_items items).foldl (fun acc x => fn x acc) s
  | [], s => by simp [visit_items, preorder_items]
  | x :: xs, s => by
    simp only [visit_items, preorder_items, List.foldl_append]
    rw [visit_variants_fold fn x s, visit_items_fold fn xs]
theorem visit_entries_fold {σ : Type} (fn : Variant → σ → σ) :
    ∀ (entries : List (Variant × Variant)) (s : σ),
      visit_entries fn entries s = (preorder_entries entries).foldl (fun acc x => fn x acc) s
  | [], s => by simp [visit_entries, preorder_entries]
  | (k, v) :: rest, s => by
    simp only [visit_entries, preorder_entries, List.foldl_append]
    rw [visit_variants_fold fn v s, visit_entries_fold fn rest]
end

theorem foldl_record (xs : List Variant) (t : List Variant) :
    xs.foldl (fun acc x => acc ++ [x]) t = t ++ xs := by
  induction xs generalizing t with
  | nil => simp
  | cons x xs ih => simp [ih]

theorem preorder_items_eq (items : List Variant) :
    preorder_items items = items.flatMap preorder := by
  induction items with
  | nil => simp [preorder_items]
  | cons x xs ih => simp [preorder_items, ih]

theorem preorder_entries_eq (entries : List (Variant × Variant)) :
    preorder_entries entries = entries.flatMap (fun p => preorder p.2) := by
  induction entries with
  | nil => simp [preorder_entries]
  | cons p rest ih =>
    obtain ⟨k, v⟩ := p
    simp [preorder_entries, ih]

/-- C13: `visit_variants(v, fn)` calls `fn` on the nodes of `v` in pre-order, once per
node: on `v` itself first, then on the whole subtree of each element of a list
in index order, or of each value of a map in the order of its entries, which is
ascending key order; keys are not passed to `fn`, and a value that is neither
list nor map gives the single call `fn(v)`.  On `{a: [1,2], b: 3}` the calls
are the root, `[1,2]`, `1`, `2`, `3`. -/
theorem visit_variants_preorder (v : Variant) :
    (∀ (σ : Type) (fn : Variant → σ → σ) (s : σ),
        visit_variants fn v s = (preorder v).foldl (fun acc x => fn x acc) s)
    ∧ visit_variants (fun x calls => calls ++ [x]) v [] = preorder v
    ∧ (∀ items, preorder (list items) = list items :: items.flatMap preorder)
    ∧ (∀ entries, preorder (map entries)
        = map entries :: entries.flatMap (fun p => preorder p.2))
    ∧ (∀ entries, (map entries).wf = true →
        (map_keys entries).Pairwise (fun a b => cmp a b = .lt))
    ∧ (∀ x, x.is_list = false → x.is_map = false → preorder x = [x])
    ∧ visit_variants (fun x calls => calls ++ [x])
          (map [(string "a", list [int 1, int 2]), (string "b", int 3)]) []
        = [map [(string "a", list [int 1, int 2]), (string "b", int 3)],
            list [int 1, int 2], int 1, int 2, int 3] := by
  refine ⟨fun σ fn s => visit_variants_fold fn v s, ?_, ?_, ?_, ?_, ?_, by decide⟩
  · rw [visit_variants_fold, foldl_record]; simp
  · intro items; simp [preorder, preorder_items_eq]
  · intro entries; simp [preorder, preorder_entries_eq]
  · intro entries h
    simp only [Variant.wf, Bool.and_eq_true] at h
    exact (keys_ascending_iff _).1 h.1
  · intro x hl hm
    cases x <;> simp_all [preorder, is_list, is_map]

/-! ## Facts about the constant scope stack -/

theorem cmap_find_replace (m : constants_map) (attr : String) (v : Variant) (k : String) :
    cmap_find (cmap_replace m attr v) k =
      if k = attr then (cmap_find m attr).map (fun _ => v) else cmap_find m k := by
  induction m with
  | nil => simp [cmap_find, cmap_replace]
  | cons p rest ih =>
    obtain ⟨k0, x⟩ := p
    by_cases h0 : attr = k0
    · subst h0
      by_cases hk : k = attr <;> simp [cmap_find, cmap_replace, hk]
    · by_cases hk : k = attr
      · subst hk
        simp [cmap_find, cmap_replace, h0] at ih ⊢
        exact ih
      · by_cases hk0 : k = k0
        · subst hk0
          simp [cmap_find, cmap_replace, h0, hk]
        · simp [cmap_find, cmap_replace, h0, hk, hk0] at ih ⊢
          exact ih

theorem cmap_find_insert_other (m : constants_map) (attr : String) (v : Variant)
    (k : String) (hk : k ≠ attr) : cmap_find (cmap_insert m attr v) k = cmap_find m k := by
  induction m with
  | nil => simp [cmap_find, cmap_insert, hk]
  | cons p rest ih =>
    obtain ⟨k0, x⟩ := p
    by_cases hlt : str_lt attr k0 = true
    · simp [cmap_find, cmap_insert, hlt, hk]
    · by_cases hk0 : k = k0
      · simp [cmap_find, cmap_insert, hlt, hk0]
      · simp [cmap_find, cmap_insert, hlt, hk0, ih]

theorem cmap_find_insert_same (m : constants_map) (attr : String) (v : Variant)
    (habs : cmap_find m attr = none) : cmap_find (cmap_insert m attr v) attr = some v := by
  induction m with
  | nil => simp [cmap_find, cmap_insert]
  | cons p rest ih =>
    obtain ⟨k0, x⟩ := p
    by_cases h0 : attr = k0
    · simp [cmap_find, h0] at habs
    · simp only [cmap_find, h0, if_false] at habs
      by_cases hlt : str_lt attr k0 = true
      · simp [cmap_find, cmap_insert, hlt]
      · simp [cmap_find, cmap_insert, hlt, h0, ih habs]

/-- After `m[attr] = v` the frame holds `v` under `attr` and is unchanged elsewhere. -/
theorem cmap_find_assign (m : constants_map) (attr : String) (v : Variant) (k : String) :
    cmap_find (cmap_assign m attr v) k = if k = attr then some v else cmap_find m k := by
  unfold cmap_assign
  cases hf : cmap_find m attr with
  | none =>
    by_cases hk : k = attr
    · subst hk; simp [cmap_find_insert_same m k v hf]
    · simp [hk, cmap_find_insert_other m attr v k hk]
  | some x =>
    simp only [cmap_find_replace, hf]
    by_cases hk : k = attr <;> simp [hk]

theorem ne_of_not_mem_names {id n : String} {l : List String} (h : id ∉ l) (hn : n ∈ l) :
    id ≠ n :=
  fun e => h (e ▸ hn)

/-- A name outside the fixed names falls through the chain of comparisons. -/
theorem fixed_constant_none (env : Env) (id : String) (h : id ∉ fixed_names) :
    fixed_constant env id = none := by
  unfold fixed_constant
  rw [if_neg (ne_of_not_mem_names h (by decide : "DOUBLE_SCALE" ∈ fixed_names))]
  rw [if_neg (ne_of_not_mem_names h (by decide : "SCREEN_WIDTH" ∈ fixed_names))]
  rw [if_neg (ne_of_not_mem_names h (by decide : "SCREEN_HEIGHT" ∈ fixed_names))]
  rw [if_neg (ne_of_not_mem_names h (by decide : "LOW_END_SYSTEM" ∈ fixed_names))]
  rw [if_neg (ne_of_not_mem_names h (by decide : "IPHONE_SYSTEM" ∈ fixed_names))]
  rw [if_neg (ne_of_not_mem_names h (by decide : "HIGH_END_SYSTEM" ∈ fixed_names))]
  rw [if_neg (ne_of_not_mem_names h (by decide : "TBS_SERVER_ADDRESS" ∈ fixed_names))]
  rw [if_neg (ne_of_not_mem_names h (by decide : "TBS_SERVER_PORT" ∈ fixed_names))]
  rw [if_neg (ne_of_not_mem_names h (by decide : "USERNAME" ∈ fixed_names))]
  rw [if_neg (ne_of_not_mem_names h (by decide : "PASSWORD" ∈ fixed_names))]
  rw [if_neg (ne_of_not_mem_names h (by decide : "UP_KEY" ∈ fixed_names))]
  rw [if_neg (ne_of_not_mem_names h (by decide : "DOWN_KEY" ∈ fixed_names))]
  rw [if_neg (ne_of_not_mem_names h (by decide : "LEFT_KEY" ∈ fixed_names))]
  rw [if_neg (ne_of_not_mem_names h (by decide : "RIGHT_KEY" ∈ fixed_names))]
  rw [if_neg (ne_of_not_mem_names h (by decide : "JUMP_KEY" ∈ fixed_names))]
  rw [if_neg (ne_of_not_mem_names h (by decide : "TONGUE_KEY" ∈ fixed_names))]
  rw [if_neg (ne_of_not_mem_names h (by decide : "ATTACK_KEY" ∈ fixed_names))]
  rw [if_neg (ne_of_not_mem_names h (by decide : "LOCALE" ∈ fixed_names))]
  rw [if_neg (ne_of_not_mem_names h (by decide : "EPSILON" ∈ fixed_names))]
  rw [if_neg (ne_of_not_mem_names h (by decide : "HEX_DIRECTIONS" ∈ fixed_names))]
  rw [if_neg (ne_of_not_mem_names h (by decide : "BUILD_OPTIONS" ∈ fixed_names))]

theorem fixed_names_resolved (env : Env) :
    fixed_names.all (fun n => (fixed_constant env n).isSome) = true := by
  rfl

/-- A fixed name is resolved by the chain of comparisons. -/
theorem fixed_constant_some (env : Env) (id : String) (h : id ∈ fixed_names) :
    ∃ v, fixed_constant env id = some v := by
  have := List.all_eq_true.1 (fixed_names_resolved env) id h
  exact Option.isSome_iff_exists.1 this

theorem find_in_frames_none (frames : List constants_map) (id : String)
    (h : ∀ f ∈ frames, cmap_find f id = none) : find_in_frames frames id = null := by
  induction frames with
  | nil => rfl
  | cons f rest ih =>
    simp only [find_in_frames, h f (List.mem_cons_self f rest)]
    exact ih (fun g hg => h g (List.mem_cons_of_mem f hg))

theorem find_in_frames_first (newer : List constants_map) (m : constants_map)
    (older : List constants_map) (id : String) (v : Variant)
    (hn : ∀ f ∈ newer, cmap_find f id = none) (hm : cmap_find m id = some v) :
    find_in_frames (newer ++ m :: older) id = v := by
  induction newer with
  | nil => simp [find_in_frames, hm]
  | cons f rest ih =>
    simp only [List.cons_append, find_in_frames, hn f (List.mem_cons_self f rest)]
    exact ih (fun g hg => hn g (List.mem_cons_of_mem f hg))

/-- C14: for a name that is not one of the fixed environment-derived names,
`get_constant` returns the value bound in the most recently pushed frame that
defines the name, and the null value, without error, when no frame on the stack
defines it (in particular on an empty stack). -/
theorem get_constant_stack (env : Env) (stack : List constants_map) (id : String)
    (hid : id ∉ fixed_names) :
    (∀ older m newer v, stack = older ++ m :: newer → cmap_find m id = some v →
        (∀ f ∈ newer, cmap_find f id = none) → get_constant env stack id = v)
    ∧ ((∀ f ∈ stack, cmap_find f id = none) → get_constant env stack id = null)
    ∧ get_constant env [] id = null := by
  have hfix := fixed_constant_none env id hid
  refine ⟨?_, ?_, ?_⟩
  · intro older m newer v hs hm hn
    simp only [get_constant, hfix, hs, List.reverse_append, List.reverse_cons,
      List.append_assoc, List.singleton_append]
    exact find_in_frames_first newer.reverse m older.reverse id v
      (fun f hf => hn f (List.mem_reverse.1 hf)) hm
  · intro hnone
    simp only [get_constant, hfix]
    exact find_in_frames_none _ id (fun f hf => hnone f (List.mem_reverse.1 hf))
  · simp [get_constant, hfix, find_in_frames]

/-- Witness for C14: with `{X: 1}` pushed before `{X: 2, Y: 3}`, `X` is 2, `Y` is 3 and
`Z` is null. -/
theorem get_constant_stack_witness :
    get_constant example_env [[("X", int 1)], [("X", int 2), ("Y", int 3)]] "X" = int 2
    ∧ get_constant example_env [[("X", int 1)], [("X", int 2), ("Y", int 3)]] "Z" = null :=
  ⟨(get_constant_stack example_env [[("X", int 1)], [("X", int 2), ("Y", int 3)]] "X"
      (by decide)).1 [[("X", int 1)]] [("X", int 2), ("Y", int 3)] [] (int 2) rfl
      (by decide) (by simp),
    (get_constant_stack example_env [[("X", int 1)], [("X", int 2), ("Y", int 3)]] "Z"
      (by decide)).2.1 (by decide)⟩

/-- What the loop of the `constants_loader` constructor leaves in the frame when every
key is a string. -/
theorem load_constants_spec (node : List (Variant × Variant)) (keys : List Variant) :
    ∀ (m : constants_map), (∀ k ∈ keys, k.is_string = true) →
      ∃ m2, load_constants node keys m = some m2
        ∧ ∀ attr, cmap_find m2 attr =
            if string attr ∈ keys ∧ has_lower attr = false
            then some (map_get node (string attr)) else cmap_find m attr := by
  induction keys with
  | nil => intro m _; exact ⟨m, rfl, fun attr => by simp⟩
  | cons key rest ih =>
    intro m hstr
    obtain ⟨a, ha⟩ := is_string_iff.1 (hstr key (List.mem_cons_self key rest))
    subst ha
    have hrest : ∀ k ∈ rest, k.is_string = true :=
      fun k hk => hstr k (List.mem_cons_of_mem _ hk)
    by_cases hl : has_lower a = true
    · obtain ⟨m2, h1, h2⟩ := ih m hrest
      refine ⟨m2, ?_, ?_⟩
      · simp only [load_constants, Variant.as_string, hl, if_true]; exact h1
      · intro attr
        rw [h2 attr]
        by_cases hattr : attr = a
        · subst hattr; simp [hl]
        · have : string attr ≠ string a := by
            intro e; injection e with e; exact hattr e
          simp [this]
    · obtain ⟨m2, h1, h2⟩ := ih (cmap_assign m a (map_get node (string a))) hrest
      refine ⟨m2, ?_, ?_⟩
      · simp only [load_constants, Variant.as_string, hl]; exact h1
      · intro attr
        rw [h2 attr, cmap_find_assign]
        by_cases hattr : attr = a
        · subst hattr
          simp only [Bool.not_eq_true] at hl
          by_cases hr : string attr ∈ rest <;> simp [hr, hl]
        · have : string attr ≠ string a := by
            intro e; injection e with e; exact hattr e
          simp [this, hattr]

/-- The loop of the constructor only succeeds when every key is a string. -/
theorem load_constants_strings (node : List (Variant × Variant)) (keys : List Variant) :
    ∀ (m m2 : constants_map), load_constants node keys m = some m2 →
      ∀ k ∈ keys, k.is_string = true := by
  induction keys with
  | nil => intro m m2 _ k hk; simp at hk
  | cons key rest ih =>
    intro m m2 h k hk
    cases hs : key.as_string with
    | none => simp [load_constants, hs] at h
    | some attr =>
      have hkey : key.is_string = true := by
        cases key <;> simp_all [Variant.as_string, is_string]
      simp only [load_constants, hs] at h
      rcases List.mem_cons.1 hk with e | e
      · rw [e]; exact hkey
      · split at h
        · exact ih m m2 h k e
        · exact ih _ m2 h k e

/-- C15: the frame the `constants_loader` constructor builds from a node and pushes
binds exactly the keys of the node that contain no lower-case character (the
empty key included), each to the value of the node for that key, and nothing
else; it is built for every map whose keys are strings, and a null node or a map
without keys gives the empty frame.  After entering `{"A": 1, "b": 2}` the frame
is `{A: 1}`. -/
theorem constants_loader_frame (entries : List (Variant × Variant)) :
    ((∀ k ∈ map_keys entries, k.is_string = true) → ∃ m, new_frame (map entries) = some m)
    ∧ (∀ m, new_frame (map entries) = some m →
        (∀ stack, ∃ ldr,
          constants_loader.constructor stack (map entries) = some (ldr, stack ++ [m]))
        ∧ (∀ attr, cmap_find m attr =
            if string attr ∈ map_keys entries ∧ has_lower attr = false
            then some (map_get entries (string attr)) else none))
    ∧ new_frame null = some []
    ∧ new_frame (map []) = some []
    ∧ new_frame (map [(string "A", int 1), (string "b", int 2)]) = some [("A", int 1)]
    ∧ new_frame (map [(string "", int 5), (string "A_1", int 6), (string "aB", int 7)])
        = some [("", int 5), ("A_1", int 6)] := by
  refine ⟨?_, ?_, rfl, rfl, by decide, by decide⟩
  · intro hstr
    obtain ⟨m, h1, _⟩ := load_constants_spec entries (map_keys entries) [] hstr
    exact ⟨m, h1⟩
  · intro m hm
    have hstr := load_constants_strings entries (map_keys entries) [] m hm
    obtain ⟨m2, h1, h2⟩ := load_constants_spec entries (map_keys entries) [] hstr
    have hmm : m2 = m := Option.some.inj (h1.symm.trans hm)
    subst hmm
    refine ⟨?_, ?_⟩
    · intro stack
      simp [constants_loader.constructor, hm]
    · intro attr
      rw [h2 attr]
      simp [cmap_find]

/-- Witness for C15: after entering `{"A": 1, "b": 2}` on an empty stack, `A` resolves
to 1 and `b` to null. -/
theorem constants_loader_frame_witness :
    ∃ m ldr, constants_loader.constructor [] (map [(string "A", int 1), (string "b", int 2)])
          = some (ldr, [m])
      ∧ get_constant example_env [m] "A" = int 1
      ∧ get_constant example_env [m] "b" = null :=
  match (constants_loader_frame [(string "A", int 1), (string "b", int 2)]).1 (by decide) with
  | ⟨m, hm⟩ =>
    match (constants_loader_frame [(string "A", int 1), (string "b", int 2)]).2.1 m hm with
    | ⟨h2, h3⟩ =>
      match h2 [] with
      | ⟨ldr, h4⟩ =>
        ⟨m, ldr, h4, by
            have hA := h3 "A"
            rw [if_pos (by decide)] at hA
            simp only [get_constant, fixed_constant_none example_env "A" (by decide),
              List.reverse_cons, List.reverse_nil, List.nil_append, find_in_frames, hA]
            decide,
          by
            have hb := h3 "b"
            rw [if_neg (by decide)] at hb
            simp only [get_constant, fixed_constant_none example_env "b" (by decide),
              List.reverse_cons, List.reverse_nil, List.nil_append, find_in_frames, hb]⟩

theorem constructor_some (stack : List constants_map) (node : Variant)
    (ldr : constants_loader) (stack2 : List constants_map)
    (h : constants_loader.constructor stack node = some (ldr, stack2)) :
    ∃ m, new_frame node = some m ∧ stack2 = stack ++ [m]
      ∧ ldr.same_as_base_ = (stack.isEmpty == false && decide (stack.getLast? = some m)) := by
  unfold constants_loader.constructor at h
  cases hf : new_frame node with
  | none => simp [hf] at h
  | some m =>
    simp only [hf, Option.some.injEq, Prod.mk.injEq] at h
    exact ⟨m, rfl, h.2.symm, by rw [← h.1]⟩

theorem destructor_append (stack : List constants_map) (m : constants_map) :
    constants_loader.destructor (stack ++ [m]) = some stack := by
  simp [constants_loader.destructor]

/-- C16: entering a scope and then exiting it leaves the constant stack exactly as it
was: the constructor adds one frame at the tail without changing the frames
beneath, the destructor removes that frame, so `get_constant` returns for every
name the same value after the exit as before the enter. -/
theorem constants_loader_enter_exit (stack : List constants_map) (node : Variant)
    (ldr : constants_loader) (stack2 : List constants_map)
    (h : constants_loader.constructor stack node = some (ldr, stack2)) :
    (∃ m, new_frame node = some m ∧ stack2 = stack ++ [m])
    ∧ constants_loader.destructor stack2 = some stack
    ∧ (∀ stack3, constants_loader.destructor stack2 = some stack3 →
        ∀ env id, get_constant env stack3 id = get_constant env stack id) := by
  obtain ⟨m, h1, h2, _⟩ := constructor_some stack node ldr stack2 h
  subst h2
  refine ⟨⟨m, h1, rfl⟩, destructor_append stack m, ?_⟩
  intro stack3 h3 env id
  rw [destructor_append] at h3
  injection h3 with h3
  rw [h3]

/-- Witness for C16: entering `{"A": 2, "b": 3}` above the frame `{A: 1}` and exiting
restores the stack. -/
theorem constants_loader_enter_exit_witness :
    constants_loader.destructor [[("A", int 1)], [("A", int 2)]] = some [[("A", int 1)]] :=
  (constants_loader_enter_exit [[("A", int 1)]] (map [(string "A", int 2), (string "b", int 3)])
    ⟨false⟩ [[("A", int 1)], [("A", int 2)]] (by decide)).2.1

theorem load_constants_filter (node : List (Variant × Variant)) (keys : List Variant) :
    ∀ (m : constants_map),
      load_constants node keys m = load_constants node (keys.filter kept_key) m := by
  induction keys with
  | nil => intro m; rfl
  | cons key rest ih =>
    intro m
    cases hk : key.as_string with
    | none =>
      have hkept : kept_key key = true := by simp [kept_key, hk]
      simp [List.filter_cons, hkept, load_constants, hk]
    | some attr =>
      by_cases hl : has_lower attr = true
      · have hkept : kept_key key = false := by simp [kept_key, hk, hl]
        simp only [List.filter_cons, hkept, load_constants, hk, hl, if_true]
        exact ih m
      · have hkept : kept_key key = true := by simpa [kept_key, hk] using hl
        simp only [List.filter_cons, hkept, if_true, load_constants, hk, hl, if_false]
        exact ih _

theorem load_constants_congr (n1 n2 : List (Variant × Variant)) (keys : List Variant) :
    ∀ (m : constants_map), (∀ k ∈ keys, map_get n1 k = map_get n2 k) →
      load_constants n1 keys m = load_constants n2 keys m := by
  induction keys with
  | nil => intro m _; rfl
  | cons key rest ih =>
    intro m h
    have hrest : ∀ k ∈ rest, map_get n1 k = map_get n2 k :=
      fun k hk => h k (List.mem_cons_of_mem _ hk)
    cases hk : key.as_string with
    | none => simp [load_constants, hk]
    | some attr =>
      simp only [load_constants, hk, h key (List.mem_cons_self key rest)]
      split
      · exact ih m hrest
      · exact ih _ hrest

theorem map_get_filter_kept (entries : List (Variant × Variant)) (key : Variant)
    (hk : kept_key key = true) :
    map_get (entries.filter (fun p => kept_key p.1)) key = map_get entries key := by
  induction entries with
  | nil => rfl
  | cons p rest ih =>
    obtain ⟨k, v⟩ := p
    by_cases hkk : key = k
    · subst hkk
      simp [List.filter_cons, hk, map_get_cons_self]
    · by_cases hkept : kept_key k = true
      · simp only [List.filter_cons, hkept, if_true, map_get_cons_ne k v _ key hkk]
        exact ih
      · simp only [List.filter_cons, hkept, map_get_cons_ne k v _ key hkk]
        exact ih

/-- The frame built from a map node depends only on the entries whose key the
constructor does not skip. -/
theorem new_frame_filter (entries : List (Variant × Variant)) :
    new_frame (map entries) = new_frame (map (entries.filter (fun p => kept_key p.1))) := by
  have hkeys : map_keys (entries.filter (fun p => kept_key p.1))
      = (map_keys entries).filter kept_key := by
    simp only [map_keys, List.filter_map]
    rfl
  simp only [new_frame]
  rw [load_constants_filter entries (map_keys entries) [], hkeys]
  apply load_constants_congr
  intro k hk
  rw [map_get_filter_kept entries k (List.mem_filter.1 hk).2]

/-- C17: the constructor sets `same_as_base_` exactly when the stack was non-empty and
its top frame equals the new frame built from the node; it is false on an empty
stack; the new frame is pushed in both cases.  Entering again with the same node,
or with a map node that differs from it only in keys with lower-case characters,
marks the second scope as the same as its base. -/
theorem constants_loader_same_as_base (stack : List constants_map) (node : Variant)
    (m : constants_map) (hm : new_frame node = some m) :
    ∃ ldr, constants_loader.constructor stack node = some (ldr, stack ++ [m])
      ∧ (ldr.same_as_base_ = true ↔ stack ≠ [] ∧ stack.getLast? = some m)
      ∧ (stack = [] → ldr.same_as_base_ = false)
      ∧ constants_loader.constructor (stack ++ [m]) node = some (⟨true⟩, stack ++ [m] ++ [m])
      ∧ (∀ e1 e2, node = map e1 →
          e2.filter (fun p => kept_key p.1) = e1.filter (fun p => kept_key p.1) →
          constants_loader.constructor (stack ++ [m]) (map e2)
            = some (⟨true⟩, stack ++ [m] ++ [m])) := by
  refine ⟨⟨stack.isEmpty == false && decide (stack.getLast? = some m)⟩, ?_, ?_, ?_, ?_, ?_⟩
  · simp [constants_loader.constructor, hm]
  · cases stack <;> simp
  · intro hs; subst hs; rfl
  · simp [constants_loader.constructor, hm]
  · intro e1 e2 hn hf
    subst hn
    have h2 : new_frame (map e2) = some m := by
      rw [new_frame_filter e2, hf, ← new_frame_filter e1, hm]
    simp [constants_loader.constructor, h2]

/-- Witness for C17: after `{"A": 1, "b": 2}`, entering `{"A": 1, "c": 3}` is marked as
the same as its base; the first scope on an empty stack is not. -/
theorem constants_loader_same_as_base_witness :
    constants_loader.constructor [] (map [(string "A", int 1), (string "b", int 2)])
        = some (⟨false⟩, [[("A", int 1)]])
    ∧ constants_loader.constructor ([] ++ [[("A", int 1)]])
          (map [(string "A", int 1), (string "c", int 3)])
        = some (⟨true⟩, [] ++ [[("A", int 1)]] ++ [[("A", int 1)]]) :=
  ⟨by decide,
    match constants_loader_same_as_base [] (map [(string "A", int 1), (string "b", int 2)])
        [("A", int 1)] (by decide) with
    | ⟨_, _, _, _, _, h⟩ =>
      h [(string "A", int 1), (string "b", int 2)] [(string "A", int 1), (string "c", int 3)]
        rfl (by decide)⟩

/-- Scope operations keep the stack depth equal to the number of open scopes, and
matched exits never meet an empty stack. -/
theorem run_scopes_matched (ops : List ScopeOp) :
    ∀ (stack : List constants_map),
      (∀ op ∈ ops, op.accepted = true) →
      exits_matched stack.length ops = true →
      ∃ s, run_scopes ops stack = some s ∧ s.length = open_scopes stack.length ops := by
  induction ops with
  | nil => intro stack _ _; exact ⟨stack, rfl, rfl⟩
  | cons op rest ih =>
    intro stack hvalid hmatched
    have hrest : ∀ op ∈ rest, op.accepted = true :=
      fun op2 hn => hvalid op2 (List.mem_cons_of_mem _ hn)
    cases op with
    | enter node =>
      obtain ⟨m, hm⟩ := Option.isSome_iff_exists.1 (hvalid (.enter node) (List.mem_cons_self _ _))
      simp only [exits_matched] at hmatched
      have hlen : (stack ++ [m]).length = stack.length + 1 := by simp
      obtain ⟨s, h1, h2⟩ := ih (stack ++ [m]) hrest (by rw [hlen]; exact hmatched)
      refine ⟨s, ?_, ?_⟩
      · simp only [run_scopes, constants_loader.constructor, hm]; exact h1
      · rw [h2, hlen]; rfl
    | exit =>
      rcases List.eq_nil_or_concat stack with hs | ⟨init, top, hs⟩
      · subst hs
        simp [exits_matched] at hmatched
      · rw [List.concat_eq_append] at hs
        subst hs
        have hlen : (init ++ [top]).length = init.length + 1 := by simp
        rw [hlen] at hmatched ⊢
        simp only [exits_matched] at hmatched
        obtain ⟨s, h1, h2⟩ := ih init hrest hmatched
        refine ⟨s, ?_, ?_⟩
        · simp only [run_scopes, destructor_append]; exact h1
        · rw [h2]; rfl

/-- C18: the destructor is a fatal error exactly on an empty stack; on a non-empty
stack it removes the top frame and leaves the others unchanged.  In a sequence of
scope operations from an empty stack in which each exit is matched with an
earlier enter not yet exited (the nodes being ones the constructor accepts),
every operation succeeds and the stack depth is the number of scopes entered and
not yet exited. -/
theorem constants_loader_exit (stack : List constants_map) :
    (constants_loader.destructor stack = none ↔ stack = [])
    ∧ (∀ init top, stack = init ++ [top] → constants_loader.destructor stack = some init)
    ∧ (∀ ops, (∀ op ∈ ops, op.accepted = true) →
        exits_matched 0 ops = true →
        ∃ s, run_scopes ops [] = some s ∧ s.length = open_scopes 0 ops) := by
  refine ⟨?_, ?_, ?_⟩
  · cases stack <;> simp [constants_loader.destructor]
  · intro init top hs
    rw [hs, destructor_append]
  · intro ops hv hm
    exact run_scopes_matched ops [] hv hm

/-- Witness for C18: enter, enter, exit, enter, exit from an empty stack leaves depth
1, and an exit on the empty stack is fatal. -/
theorem constants_loader_exit_witness :
    (∃ s, run_scopes [.enter null, .enter (map [(string "A", int 1)]), .exit,
          .enter null, .exit] [] = some s
        ∧ s.length = 1)
    ∧ run_scopes [.enter null, .exit, .exit] [] = none :=
  ⟨(constants_loader_exit []).2.2
      [.enter null, .enter (map [(string "A", int 1)]), .exit, .enter null, .exit]
      (by decide) (by decide),
    by decide⟩


/-! ## Facts about `parse_variant_list_or_csv_string` -/

theorem as_list_string_strings (form : Variant → Option String) (xs : List String) :
    as_list_string form (xs.map string) = some xs := by
  induction xs with
  | nil => simp [as_list_string]
  | cons x t ih => simp [as_list_string, ih]

/-- C19: whatever the tokenizer and the string form of other elements are,
`parse_variant_list_or_csv_string(v)` returns the empty sequence for null, the
elements in order for a list of strings, the result of splitting for a string,
and reports an error for every value that is neither a string, a list nor null
(an integer, a boolean, a decimal, a map, an object). -/
theorem parse_variant_list_or_csv_string_cases (split : String → List String)
    (form : Variant → Option String) :
    parse_variant_list_or_csv_string split form null = some []
    ∧ (∀ xs : List String,
        parse_variant_list_or_csv_string split form (list (xs.map string)) = some xs)
    ∧ parse_variant_list_or_csv_string split form (list [string "x", string "y"])
        = some ["x", "y"]
    ∧ (∀ s, parse_variant_list_or_csv_string split form (string s) = some (split s))
    ∧ (∀ v, v.is_string = false → v.is_list = false → v.is_null = false →
        parse_variant_list_or_csv_string split form v = none)
    ∧ (∀ n, parse_variant_list_or_csv_string split form (int n) = none)
    ∧ (∀ b, parse_variant_list_or_csv_string split form (Variant.bool b) = none)
    ∧ (∀ d, parse_variant_list_or_csv_string split form (decimal d) = none)
    ∧ (∀ m, parse_variant_list_or_csv_string split form (map m) = none)
    ∧ (∀ o, parse_variant_list_or_csv_string split form (object o) = none) := by
  refine ⟨rfl, ?_, ?_, fun s => rfl, ?_, fun _ => rfl, fun _ => rfl, fun _ => rfl,
    fun _ => rfl, fun _ => rfl⟩
  · intro xs
    simp only [parse_variant_list_or_csv_string]
    exact as_list_string_strings form xs
  · exact as_list_string_strings form ["x", "y"]
  · intro v hs hl hn
    cases v <;> simp_all [parse_variant_list_or_csv_string, is_string, is_list, is_null]

/-- C20: a fixed environment-derived name is resolved before the constant stack is
consulted: for every such name and any two stacks `get_constant` returns the same
value under the same environment, also when a frame binds the name; and
`get_constant("HEX_DIRECTIONS")` is always `["n","ne","se","s","sw","nw"]`. -/
theorem get_constant_fixed (env : Env) (stack1 stack2 : List constants_map) :
    (∀ id ∈ fixed_names, get_constant env stack1 id = get_constant env stack2 id)
    ∧ (∀ id ∈ fixed_names, ∃ v, fixed_constant env id = some v
        ∧ get_constant env stack1 id = v)
    ∧ get_constant env stack1 "HEX_DIRECTIONS"
        = list [string "n", string "ne", string "se", string "s", string "sw", string "nw"]
    ∧ get_constant env [[("SCREEN_WIDTH", int 1), ("HEX_DIRECTIONS", null)]] "SCREEN_WIDTH"
        = int env.screen_width := by
  refine ⟨?_, ?_, rfl, rfl⟩
  · intro id hid
    obtain ⟨v, hv⟩ := fixed_constant_some env id hid
    simp [get_constant, hv]
  · intro id hid
    obtain ⟨v, hv⟩ := fixed_constant_some env id hid
    exact ⟨v, hv, by simp [get_constant, hv]⟩
